import Mathlib

/-!
Verification of the token-stream minifiers of `mksingle.py`.

`Minify` (Python minifier) is embedded as a state machine over a list of
tokens, exactly mirroring the loop body of the source function; the external
standard tokenizer it consumes is modelled separately.  Strings are modelled
as `List Char` (Python `str` is a sequence of characters).
-/

namespace Mks

abbrev Str := List Char

/-- Token categories used by `Minify` (from the `token`/`tokenize` modules:
NAME, NUMBER, STRING, OP, COMMENT, NL, NEWLINE, INDENT, DEDENT, ENDMARKER). -/
inductive TokType where
  | NAME | NUMBER | STRING | OP | COMMENT | NL | NEWLINE | INDENT | DEDENT | ENDMARKER
  deriving DecidableEq, Repr

/-- A token: its type tag `tt` and its text `ts`, the two components of each
tokenizer tuple that `Minify` reads (`for tt, ts, _, _, _ in ...`). -/
structure Tok where
  tt : TokType
  ts : Str
  deriving DecidableEq, Repr

/-- The local state of `Minify`'s loop: `i` (indentation), `isAtBol`
(beginning of line and file), `isEmptyIndent`, and `pt` (previous token,
`none` standing for the sentinel `-1`). -/
structure MState where
  i : Int
  isAtBol : Bool
  isEmptyIndent : Bool
  pt : Option TokType
  deriving DecidableEq, Repr

/-- `" " * i` (Python semantics: the empty string for non-positive `i`). -/
def spaces (n : Int) : Str := List.replicate n.toNat ' '

/-- The fragment `"pass\n"` emitted for empty blocks. -/
def passNl : Str := ("pass\n").toList

/-- `pt in (_NAME, _NUMBER)`. -/
def isNameOrNumber (t : Option TokType) : Bool :=
  t == some .NAME || t == some .NUMBER

/-- `ts[0] in "rb"` for the string-prefix test (source line 111). -/
def headRB : Str → Bool
  | c :: _ => c == 'r' || c == 'b'
  | [] => false

/-- The separating-space condition of source lines 110-112:
`pt in _NAME_OR_NUMBER and (tt in _NAME_OR_NUMBER or (tt == _STRING and ts[0] in "rb"))`. -/
def spaceNeeded (pt : Option TokType) (t : Tok) : Bool :=
  isNameOrNumber pt &&
    (isNameOrNumber (some t.tt) || (t.tt == .STRING && headRB t.ts))

/-- The `else` branch of the loop (source lines 106-115): emit indentation
when at the beginning of a line, a separating space when needed, then the
token text verbatim. -/
def emitTok (st : MState) (t : Tok) : MState × List Str :=
  (⟨st.i, false, false, some t.tt⟩,
   (if st.isAtBol then [spaces st.i] else []) ++
   (if spaceNeeded st.pt t then [[' ']] else []) ++ [t.ts])

/-- One iteration of `Minify`'s loop body (source lines 86-115). -/
def minifyStep (st : MState) (t : Tok) : MState × List Str :=
  match t.tt with
  | .INDENT => (⟨st.i + 1, st.isAtBol, true, st.pt⟩, [])
  | .DEDENT =>
      if st.isEmptyIndent then
        (⟨st.i - 1, st.isAtBol, false, st.pt⟩, [spaces st.i, passNl])
      else
        (⟨st.i - 1, st.isAtBol, st.isEmptyIndent, st.pt⟩, [])
  | .NEWLINE =>
      (⟨st.i, true, st.isEmptyIndent, none⟩,
       if st.isAtBol then [] else [['\n']])
  | .COMMENT => (st, [])
  | .NL => (st, [])
  | .STRING => if st.isAtBol then (st, []) else emitTok st t
  | _ => emitTok st t

/-- Output fragments of the loop run from state `st` over a token list. -/
def minifyFrom (st : MState) : List Tok → List Str
  | [] => []
  | t :: ts => (minifyStep st t).2 ++ minifyFrom (minifyStep st t).1 ts

/-- The loop state after processing a token list from state `st`. -/
def stateFrom (st : MState) : List Tok → MState
  | [] => st
  | t :: ts => stateFrom (minifyStep st t).1 ts

/-- The initial state of `Minify` (source lines 77-80). -/
def initState : MState := ⟨0, true, false, none⟩

/-- All fragments `Minify` passes to `output_func` on a token stream,
including the final empty-indent fallback (source lines 116-118). -/
def minifyFragments (ts : List Tok) : List Str :=
  minifyFrom initState ts ++
    (if (stateFrom initState ts).isEmptyIndent then
      [spaces (stateFrom initState ts).i, passNl]
    else [])

/-- Concatenation of a fragment list: the full output text. -/
def joinS (l : List Str) : Str := l.flatten

/-- Whether `pat` occurs contiguously inside `s` (Python's `in` on `str`). -/
def hasInfix (pat : Str) : Str → Bool
  | [] => pat.isEmpty
  | c :: rest => pat.isPrefixOf (c :: rest) || hasInfix pat rest

theorem minifyFrom_append (st : MState) (a b : List Tok) :
    minifyFrom st (a ++ b) = minifyFrom st a ++ minifyFrom (stateFrom st a) b := by
  induction a generalizing st with
  | nil => simp [minifyFrom, stateFrom]
  | cons t ts ih => simp [minifyFrom, stateFrom, ih]

theorem stateFrom_append (st : MState) (a b : List Tok) :
    stateFrom st (a ++ b) = stateFrom (stateFrom st a) b := by
  induction a generalizing st with
  | nil => simp [stateFrom]
  | cons t ts ih => simp [stateFrom, ih]

/-! ### Claim C3: which STRING tokens are skipped -/

/-- The text of the bare string literal of the C3 counterexample stream. -/
def c3H : Str := ("\"h\"").toList

/-- Tokens before the bare string statement: the logical line `x=1` and its
NEWLINE (as produced by the standard tokenizer on `x=1\n"h"\ny=2\n`). -/
def c3Pre : List Tok :=
  [⟨.NAME, ("x").toList⟩, ⟨.OP, ("=").toList⟩, ⟨.NUMBER, ("1").toList⟩,
   ⟨.NEWLINE, ("\n").toList⟩]

/-- Tokens after the bare string statement. -/
def c3Post : List Tok :=
  [⟨.NEWLINE, ("\n").toList⟩, ⟨.NAME, ("y").toList⟩, ⟨.OP, ("=").toList⟩,
   ⟨.NUMBER, ("2").toList⟩, ⟨.NEWLINE, ("\n").toList⟩, ⟨.ENDMARKER, []⟩]

/-- The full C3 counterexample token stream: module-level source
`x=1` / `"h"` / `y=2`. -/
def c3Toks : List Tok := c3Pre ++ Tok.mk .STRING c3H :: c3Post

/-- C3 counterexample: in the stream for `x=1` / `"h"` / `y=2`, the STRING
`"h"` begins a logical line that is neither the first line of the file nor the
first line of any block (the stream contains no INDENT at all, and a NEWLINE
precedes the string), so the claim says it is emitted unchanged; but `Minify`
drops it: its text is not even an infix of the output, which is exactly
`x=1\ny=2\n`. -/
theorem c3_counterexample :
    ((∀ u ∈ c3Toks, u.tt ≠ TokType.INDENT)
      ∧ (∃ u ∈ c3Pre, u.tt = TokType.NEWLINE)
      ∧ (stateFrom initState c3Pre).isAtBol = true)
    ∧ hasInfix c3H (joinS (minifyFragments c3Toks)) = false
    ∧ joinS (minifyFragments c3Toks) = ("x=1\ny=2\n").toList := by
  decide

/-- C3 (amended): `Minify` skips a STRING token exactly when no token has yet
been emitted on its logical line (the machine is at the beginning of an output
line) — on every logical line, not only the first line of a block or file.
A STRING preceded by an emitted token on its line is emitted unchanged,
after a separating space exactly when the previous token was a NAME/NUMBER
and the string starts with `r` or `b`. -/
theorem c3_string_skip_characterization (p r : List Tok) (s : Str) :
    ((stateFrom initState p).isAtBol = true →
      minifyFrom initState (p ++ Tok.mk .STRING s :: r) =
        minifyFrom initState (p ++ r))
    ∧ ((stateFrom initState p).isAtBol = false →
      minifyFrom initState (p ++ Tok.mk .STRING s :: r) =
        minifyFrom initState p ++
          ((if spaceNeeded (stateFrom initState p).pt (Tok.mk .STRING s) then [[' ']] else []) ++
            s :: minifyFrom ⟨(stateFrom initState p).i, false, false, some .STRING⟩ r)) := by
  constructor
  · intro h
    rw [minifyFrom_append, minifyFrom_append]
    simp [minifyFrom, minifyStep, h]
  · intro h
    rw [minifyFrom_append]
    simp [minifyFrom, minifyStep, emitTok, h]

/-- Witness for the C3 amended theorem at the counterexample stream: the
line-initial string is dropped, everything else is untouched. -/
theorem c3_string_skip_characterization_witness :
    minifyFrom initState (c3Pre ++ Tok.mk .STRING c3H :: c3Post) =
      minifyFrom initState (c3Pre ++ c3Post) :=
  (c3_string_skip_characterization c3Pre c3Post c3H).1 (by decide)

/-! ### Claim C4: empty blocks receive a `pass` statement -/

/-- Tokens that contribute no output when the machine is at the beginning of
a line: comments, non-logical newlines, logical newlines, and (skipped)
strings. -/
def skippable (t : Tok) : Bool :=
  t.tt == .COMMENT || t.tt == .NL || t.tt == .NEWLINE || t.tt == .STRING

/-- The `pt` component of the state after a run of skipped tokens
(a NEWLINE resets it to the `-1` sentinel). -/
def ptAfterSkip (pt : Option TokType) : List Tok → Option TokType
  | [] => pt
  | t :: ts => ptAfterSkip (if t.tt == .NEWLINE then none else pt) ts

theorem skip_run (mid : List Tok) : ∀ st : MState, st.isAtBol = true →
    (∀ u ∈ mid, skippable u = true) →
    minifyFrom st mid = [] ∧
      stateFrom st mid = ⟨st.i, true, st.isEmptyIndent, ptAfterSkip st.pt mid⟩ := by
  induction mid with
  | nil => intro st h _; simp [minifyFrom, stateFrom, ptAfterSkip, ← h]
  | cons t ts ih =>
      intro st h hall
      have ht : skippable t = true := hall t (by simp)
      have hts : ∀ u ∈ ts, skippable u = true := fun u hu => hall u (by simp [hu])
      simp only [skippable, Bool.or_eq_true, beq_iff_eq] at ht
      rcases ht with ((ht | ht) | ht) | ht <;>
        simp [minifyFrom, stateFrom, minifyStep, ptAfterSkip, ht, h,
          ih _ h hts, ih ⟨st.i, true, st.isEmptyIndent, none⟩ rfl hts]

/-- C4: a block whose body consists only of skipped tokens (comments, blank
lines, a dropped doc-string) still produces exactly one `pass` statement:
at the DEDENT closing the block, `Minify` emits the indentation prefix of the
block's depth followed by `pass\n` (and nothing else for the block), and if
the token stream ends with the block still open, the same two fragments are
emitted after the stream ends. -/
theorem c4_empty_block_pass (p mid r : List Tok) (ind : Str)
    (hbol : (stateFrom initState p).isAtBol = true)
    (hmid : ∀ u ∈ mid, skippable u = true) :
    (∀ dd : Str,
      minifyFrom initState (p ++ Tok.mk .INDENT ind :: (mid ++ Tok.mk .DEDENT dd :: r)) =
        minifyFrom initState p ++
          spaces ((stateFrom initState p).i + 1) :: passNl ::
            minifyFrom ⟨(stateFrom initState p).i, true, false,
              ptAfterSkip (stateFrom initState p).pt mid⟩ r)
    ∧ minifyFragments (p ++ Tok.mk .INDENT ind :: mid) =
        minifyFrom initState p ++ [spaces ((stateFrom initState p).i + 1), passNl] := by
  set st := stateFrom initState p with hst
  have hind : minifyStep st (Tok.mk .INDENT ind) =
      (⟨st.i + 1, st.isAtBol, true, st.pt⟩, []) := by simp [minifyStep]
  have hrun := skip_run mid ⟨st.i + 1, st.isAtBol, true, st.pt⟩ (by simp [hbol])
    hmid
  constructor
  · intro dd
    rw [minifyFrom_append]
    simp only [minifyFrom, hind, stateFrom_append]
    rw [minifyFrom_append]
    simp [stateFrom, hind, hrun.1, hrun.2, minifyFrom, minifyStep,
      add_sub_cancel_right]
  · unfold minifyFragments
    rw [minifyFrom_append, stateFrom_append]
    simp [stateFrom, minifyFrom, hind, hrun.1, hrun.2]

/-- Concrete prefix for the C4 witness: the tokens of the header line
`def f():`. -/
def c4p : List Tok :=
  [⟨.NAME, ("def").toList⟩, ⟨.NAME, ("f").toList⟩, ⟨.OP, ("(").toList⟩,
   ⟨.OP, (")").toList⟩, ⟨.OP, (":").toList⟩, ⟨.NEWLINE, ("\n").toList⟩]

/-- Concrete block body for the C4 witness: a doc-string and its NEWLINE. -/
def c4mid : List Tok :=
  [⟨.STRING, ("\"d\"").toList⟩, ⟨.NEWLINE, ("\n").toList⟩]

/-- Witness for C4 at the stream of `def f():` / `"d"` (block left open at the
end of the stream): the block minifies to the header plus one `pass` line. -/
theorem c4_empty_block_pass_witness :
    ((stateFrom initState c4p).isAtBol = true)
    ∧ minifyFragments (c4p ++ Tok.mk .INDENT [' '] :: c4mid) =
        minifyFrom initState c4p ++
          [spaces ((stateFrom initState c4p).i + 1), passNl] :=
  ⟨by decide, (c4_empty_block_pass c4p c4mid [] [' '] (by decide) (by decide)).2⟩

/-! ### The block-language tokenizer

Modelled from the spec: the "Lexical Tokenizer (external collaborator)" of
spec section 2 — the standard tokenizer (`tokenize.generate_tokens`) that
converts source text into typed tokens (NAME, NUMBER, STRING, COMMENT,
NEWLINE/NL, INDENT, DEDENT, ENDMARKER, operators), which is not part of this
repository's source.  The model covers the ASCII block-language subset the
repository feeds it (space indentation, `#` comments, single-quoted and
double-quoted one-line strings with optional prefix letters, decimal
numbers with an optional fraction part, the standard operator tokens,
parenthesis-continuation lines); on anything outside this subset it returns
`none`. -/

/-- The single-quote character (`Char.ofNat 39`). -/
def sq : Char := Char.ofNat 39

def isNameStart (c : Char) : Bool := c.isAlpha || c == '_'

def isNameChar (c : Char) : Bool := c.isAlpha || c.isDigit || c == '_'

/-- String-literal prefixes recognized by the tokenizer. -/
def strPrefixes : List Str :=
  [("r").toList, ("b").toList, ("u").toList, ("f").toList,
   ("R").toList, ("B").toList, ("U").toList, ("F").toList,
   ("rb").toList, ("br").toList, ("Rb").toList, ("rB").toList,
   ("RB").toList, ("Br").toList, ("bR").toList, ("BR").toList,
   ("fr").toList, ("rf").toList, ("fR").toList, ("Fr").toList,
   ("FR").toList, ("rF").toList, ("Rf").toList, ("RF").toList]

/-- Three-character operator tokens. -/
def ops3 : List Str :=
  [("**=").toList, ("//=").toList, (">>=").toList, ("<<=").toList,
   ("...").toList]

/-- Two-character operator tokens. -/
def ops2 : List Str :=
  [("**").toList, ("//").toList, ("<<").toList, (">>").toList,
   ("<=").toList, (">=").toList, ("==").toList, ("!=").toList,
   ("->").toList, (":=").toList, ("+=").toList, ("-=").toList,
   ("*=").toList, ("/=").toList, ("%=").toList, ("&=").toList,
   ("|=").toList, ("^=").toList, ("@=").toList]

/-- One-character operator tokens. -/
def ops1 : List Char :=
  ("+-*/%@&|^~<>=.,:;()[]").toList ++ [Char.ofNat 123, Char.ofNat 125]

/-- Bracket characters that open (increase the paren depth). -/
def opens : List Char := ['(', '[', Char.ofNat 123]

/-- Bracket characters that close (decrease the paren depth). -/
def closes : List Char := [')', ']', Char.ofNat 125]

/-- Lex the body of a one-line string literal after its opening quote `q`:
returns the consumed characters (closing quote included) and the rest. -/
def lexQuoted (q : Char) : Str → Option (Str × Str)
  | [] => none
  | c :: rest =>
    if c == q then some ([c], rest)
    else if c == '\n' then none
    else if c == '\\' then
      match rest with
      | [] => none
      | d :: rest2 => (lexQuoted q rest2).map (fun p => (c :: d :: p.1, p.2))
    else (lexQuoted q rest).map (fun p => (c :: p.1, p.2))

/-- The state threaded through line-by-line lexing: the indentation stack
(innermost first, with an implicit 0 at the bottom), the bracket nesting
depth, and whether the current logical line has produced a token yet. -/
structure LexState where
  indents : List Nat
  depth : Nat
  hasTok : Bool
  deriving DecidableEq, Repr

/-- Lex the token content of one physical line (leading indentation already
handled).  Returns the tokens and the updated state.  `fuel` bounds the
number of steps; it is always called with more fuel than characters. -/
def lexLineBody (st : LexState) : Nat → Str → Option (List Tok × LexState)
  | 0, _ => none
  | _ + 1, [] => some ([], st)
  | fuel + 1, c :: rest =>
    if c == '\n' then
      if st.depth > 0 then some ([⟨.NL, ['\n']⟩], st)
      else if st.hasTok then
        some ([⟨.NEWLINE, ['\n']⟩], ⟨st.indents, st.depth, false⟩)
      else some ([⟨.NL, ['\n']⟩], st)
    else if c == ' ' then lexLineBody st fuel rest
    else if c == '#' then
      let com := c :: rest.takeWhile (fun d => !(d == '\n'))
      (lexLineBody st fuel (rest.dropWhile (fun d => !(d == '\n')))).map
        (fun p => (⟨.COMMENT, com⟩ :: p.1, p.2))
    else if c == sq || c == '"' then
      match rest with
      | d :: e :: _ =>
        if d == c && e == c then none
        else (lexQuoted c rest).bind (fun p =>
          (lexLineBody ⟨st.indents, st.depth, true⟩ fuel p.2).map
            (fun q => (⟨.STRING, c :: p.1⟩ :: q.1, q.2)))
      | _ =>
        (lexQuoted c rest).bind (fun p =>
          (lexLineBody ⟨st.indents, st.depth, true⟩ fuel p.2).map
            (fun q => (⟨.STRING, c :: p.1⟩ :: q.1, q.2)))
    else if isNameStart c then
      let run := c :: rest.takeWhile isNameChar
      let rest2 := rest.dropWhile isNameChar
      match rest2 with
      | q :: rest3 =>
        if (q == sq || q == '"') && strPrefixes.contains run then
          match rest3 with
          | d :: e :: _ =>
            if d == q && e == q then none
            else (lexQuoted q rest3).bind (fun p =>
              (lexLineBody ⟨st.indents, st.depth, true⟩ fuel p.2).map
                (fun w => (⟨.STRING, run ++ q :: p.1⟩ :: w.1, w.2)))
          | _ =>
            (lexQuoted q rest3).bind (fun p =>
              (lexLineBody ⟨st.indents, st.depth, true⟩ fuel p.2).map
                (fun w => (⟨.STRING, run ++ q :: p.1⟩ :: w.1, w.2)))
        else
          (lexLineBody ⟨st.indents, st.depth, true⟩ fuel rest2).map
            (fun w => (⟨.NAME, run⟩ :: w.1, w.2))
      | [] =>
        (lexLineBody ⟨st.indents, st.depth, true⟩ fuel []).map
          (fun w => (⟨.NAME, run⟩ :: w.1, w.2))
    else if c.isDigit then
      let ipart := c :: rest.takeWhile Char.isDigit
      let rest2 := rest.dropWhile Char.isDigit
      let (num, rest3) :=
        match rest2 with
        | '.' :: rest3 =>
          (ipart ++ '.' :: rest3.takeWhile Char.isDigit,
           rest3.dropWhile Char.isDigit)
        | _ => (ipart, rest2)
      (lexLineBody ⟨st.indents, st.depth, true⟩ fuel rest3).map
        (fun w => (⟨.NUMBER, num⟩ :: w.1, w.2))
    else if c == '.' then
      match rest with
      | '.' :: '.' :: rest3 =>
        (lexLineBody ⟨st.indents, st.depth, true⟩ fuel rest3).map
          (fun w => (⟨.OP, ("...").toList⟩ :: w.1, w.2))
      | d :: _ =>
        if d.isDigit then
          let num := '.' :: rest.takeWhile Char.isDigit
          (lexLineBody ⟨st.indents, st.depth, true⟩ fuel
              (rest.dropWhile Char.isDigit)).map
            (fun w => (⟨.NUMBER, num⟩ :: w.1, w.2))
        else
          (lexLineBody ⟨st.indents, st.depth, true⟩ fuel rest).map
            (fun w => (⟨.OP, ['.']⟩ :: w.1, w.2))
      | [] =>
        (lexLineBody ⟨st.indents, st.depth, true⟩ fuel []).map
          (fun w => (⟨.OP, ['.']⟩ :: w.1, w.2))
    else
      match (ops3 ++ ops2).find? (fun o => o.isPrefixOf (c :: rest)) with
      | some o =>
        (lexLineBody ⟨st.indents, st.depth, true⟩ fuel
            ((c :: rest).drop o.length)).map
          (fun w => (⟨.OP, o⟩ :: w.1, w.2))
      | none =>
        if ops1.contains c then
          let d := if opens.contains c then st.depth + 1
                   else if closes.contains c then st.depth - 1 else st.depth
          (lexLineBody ⟨st.indents, d, true⟩ fuel rest).map
            (fun w => (⟨.OP, [c]⟩ :: w.1, w.2))
        else none

/-- Split source text into physical lines, each including its trailing
newline (a final fragment without a newline is kept as-is). -/
def splitLines : Str → List Str
  | [] => []
  | c :: rest =>
    if c == '\n' then ['\n'] :: splitLines rest
    else
      match splitLines rest with
      | [] => [[c]]
      | l :: ls => (c :: l) :: ls

/-- Emit one DEDENT per indentation-stack entry deeper than `n`; fails on an
inconsistent dedent. -/
def dedentsTo (n : Nat) : List Nat → Option (List Tok × List Nat)
  | [] => if n == 0 then some ([], []) else none
  | m :: ms =>
    if n == m then some ([], m :: ms)
    else if n < m then
      (dedentsTo n ms).map (fun p => (Tok.mk .DEDENT [] :: p.1, p.2))
    else none

/-- Process the physical lines of a source text, producing the token list
(NEWLINE of text `""` synthesized at end of input when the last line has no
newline, then the closing DEDENTs and the ENDMARKER, as the standard
tokenizer does). -/
def lexLines : List Str → LexState → Option (List Tok)
  | [], st =>
    if st.depth > 0 then none
    else
      some ((if st.hasTok then [Tok.mk .NEWLINE []] else []) ++
        st.indents.map (fun _ => Tok.mk .DEDENT []) ++ [Tok.mk .ENDMARKER []])
  | line :: rest, st =>
    if line.contains '\t' || line.contains '\r' then none
    else if st.depth > 0 then
      (lexLineBody st (line.length + 1) line).bind (fun p =>
        (lexLines rest p.2).map (fun ts => p.1 ++ ts))
    else
      let n := (line.takeWhile (fun c => c == ' ')).length
      let body := line.dropWhile (fun c => c == ' ')
      match body with
      | [] => lexLines rest st
      | ['\n'] =>
        (lexLines rest st).map (fun ts => Tok.mk .NL ['\n'] :: ts)
      | c :: _ =>
        if c == '#' then
          let com := body.takeWhile (fun d => !(d == '\n'))
          let nlTok : Tok :=
            if body.contains '\n' then ⟨.NL, ['\n']⟩ else ⟨.NL, []⟩
          (lexLines rest st).map
            (fun ts => Tok.mk .COMMENT com :: nlTok :: ts)
        else
          let top := st.indents.headD 0
          let ipart : Option (List Tok × List Nat) :=
            if n > top then some ([⟨.INDENT, List.replicate n ' '⟩], n :: st.indents)
            else dedentsTo n st.indents
          ipart.bind (fun ip =>
            (lexLineBody ⟨ip.2, st.depth, st.hasTok⟩ (body.length + 1) body).bind
              (fun p => (lexLines rest p.2).map (fun ts => ip.1 ++ p.1 ++ ts)))

/-- The tokenizer entry point, from source text to the token stream `Minify`
iterates over. -/
def pyTokenize (s : Str) : Option (List Tok) :=
  lexLines (splitLines s) ⟨[], 0, false⟩

/-- Whether a token type is one of the semantic categories NAME, NUMBER,
STRING or operator. -/
def semKind (t : TokType) : Bool :=
  t == .NAME || t == .NUMBER || t == .STRING || t == .OP

/-- The subsequence of semantic (NAME/NUMBER/STRING/operator) tokens of a
stream. -/
def semFilter (ts : List Tok) : List Tok := ts.filter (fun t => semKind t.tt)

/-- Minification as a text-to-text function: tokenize, run `Minify`, join
the fragments (`none` when the tokenizer rejects the input). -/
def minStr (s : Str) : Option Str :=
  (pyTokenize s).map (fun t => joinS (minifyFragments t))

/-! ### Claim C5: idempotence (counterexample) -/

/-- C5 counterexample: the valid source `x=1 . real` (attribute access on the
int literal `1`) minifies to `x=1.real`, in which `1` and `.` have merged
into the float NUMBER token `1.`; minifying a second time inserts a space
between the NUMBER `1.` and the NAME `real`, giving `x=1. real` — so
`minify(minify(x))` differs from `minify(x)`. -/
theorem c5_counterexample :
    minStr (("x=1 . real\n").toList) = some (("x=1.real\n").toList)
    ∧ minStr (("x=1.real\n").toList) = some (("x=1. real\n").toList)
    ∧ (minStr (("x=1 . real\n").toList)).bind minStr ≠
        minStr (("x=1 . real\n").toList) := by
  decide

/-! ### Claim C1: round-trip token equivalence (counterexample) -/

/-- C1 counterexample: on `def f():` / `"d"` the output is
`def f():` / ` pass`, which re-tokenizes to the semantic tokens
`def f ( ) : pass` — not the input's semantic tokens with the doc-string
STRING removed (`def f ( ) :`): `Minify` inserts a `pass` NAME token for the
emptied block, which the claim's exception clause does not allow. -/
theorem c1_counterexample :
    (pyTokenize (("def f():\n \"d\"\n").toList)).map
        (fun t => joinS (minifyFragments t)) =
      some (("def f():\n pass\n").toList)
    ∧ (pyTokenize (("def f():\n \"d\"\n").toList)).map semFilter =
      some [⟨.NAME, ("def").toList⟩, ⟨.NAME, ("f").toList⟩,
            ⟨.OP, ("(").toList⟩, ⟨.OP, (")").toList⟩, ⟨.OP, (":").toList⟩,
            ⟨.STRING, ("\"d\"").toList⟩]
    ∧ (pyTokenize (("def f():\n pass\n").toList)).map semFilter =
      some [⟨.NAME, ("def").toList⟩, ⟨.NAME, ("f").toList⟩,
            ⟨.OP, ("(").toList⟩, ⟨.OP, (")").toList⟩, ⟨.OP, (":").toList⟩,
            ⟨.NAME, ("pass").toList⟩]
    ∧ (pyTokenize (("def f():\n pass\n").toList)).map semFilter ≠
      some [⟨.NAME, ("def").toList⟩, ⟨.NAME, ("f").toList⟩,
            ⟨.OP, ("(").toList⟩, ⟨.OP, (")").toList⟩, ⟨.OP, (":").toList⟩] := by
  decide

/-! ### Claim C2: separating spaces (counterexample and characterization) -/

/-- Whether concatenating the texts of two tokens without a separator would
re-tokenize as a different token sequence — the criterion of the claim. -/
def mergeDifferent (a b : Tok) : Bool :=
  match pyTokenize (a.ts ++ b.ts) with
  | some ts => !(semFilter ts == [a, b])
  | none => true

/-- State of the claim-side renderer: like `MState` but remembering the whole
previous emitted token, which the claim's space criterion needs. -/
structure M2State where
  i : Int
  isAtBol : Bool
  isEmptyIndent : Bool
  pt : Option Tok
  deriving DecidableEq, Repr

/-- The renderer the C2 claim describes: identical to `Minify` except that a
separating space is emitted exactly when concatenating the previous emitted
token with the current one would re-tokenize differently. -/
def spec2Step (st : M2State) (t : Tok) : M2State × List Str :=
  match t.tt with
  | .INDENT => (⟨st.i + 1, st.isAtBol, true, st.pt⟩, [])
  | .DEDENT =>
      if st.isEmptyIndent then
        (⟨st.i - 1, st.isAtBol, false, st.pt⟩, [spaces st.i, passNl])
      else
        (⟨st.i - 1, st.isAtBol, st.isEmptyIndent, st.pt⟩, [])
  | .NEWLINE =>
      (⟨st.i, true, st.isEmptyIndent, none⟩,
       if st.isAtBol then [] else [['\n']])
  | .COMMENT => (st, [])
  | .NL => (st, [])
  | .STRING => if st.isAtBol then (st, []) else spec2Emit st t
  | _ => spec2Emit st t
where
  spec2Emit (st : M2State) (t : Tok) : M2State × List Str :=
    (⟨st.i, false, false, some t⟩,
     (if st.isAtBol then [spaces st.i] else []) ++
     (if (match st.pt with | some a => mergeDifferent a t | none => false)
      then [[' ']] else []) ++ [t.ts])

def spec2From (st : M2State) : List Tok → List Str
  | [] => []
  | t :: ts => (spec2Step st t).2 ++ spec2From (spec2Step st t).1 ts

def spec2StateFrom (st : M2State) : List Tok → M2State
  | [] => st
  | t :: ts => spec2StateFrom (spec2Step st t).1 ts

/-- The fragments of the claim-side renderer on a token stream. -/
def spec2Fragments (ts : List Tok) : List Str :=
  spec2From ⟨0, true, false, none⟩ ts ++
    (if (spec2StateFrom ⟨0, true, false, none⟩ ts).isEmptyIndent then
      [spaces (spec2StateFrom ⟨0, true, false, none⟩ ts).i, passNl]
    else [])

/-- C2 counterexample: in `x=1 . real`, the adjacent emitted pair
NUMBER `1`, OP `.` concatenates to `1.`, which re-tokenizes as the single
NUMBER token `1.` — a different sequence — yet `Minify` emits no space there
(its rule only spaces NAME/NUMBER followed by NAME/NUMBER/rb-STRING), so its
output differs from the claimed behavior. -/
theorem c2_counterexample :
    (pyTokenize (("x=1 . real\n").toList)).map
        (fun t => joinS (minifyFragments t)) =
      some (("x=1.real\n").toList)
    ∧ (pyTokenize (("x=1 . real\n").toList)).map
        (fun t => joinS (spec2Fragments t)) =
      some (("x=1 .real\n").toList)
    ∧ mergeDifferent ⟨.NUMBER, ("1").toList⟩ ⟨.OP, (".").toList⟩ = true
    ∧ spaceNeeded (some .NUMBER) ⟨.OP, (".").toList⟩ = false
    ∧ (pyTokenize (("x=1 . real\n").toList)).map
        (fun t => joinS (minifyFragments t)) ≠
      (pyTokenize (("x=1 . real\n").toList)).map
        (fun t => joinS (spec2Fragments t)) := by
  decide

/-- Whether a token reaches the emitting `else` branch of the loop from a
given state (it is not an INDENT/DEDENT/NEWLINE/COMMENT/NL and not a skipped
line-initial STRING). -/
def emittedDirectly (st : MState) (t : Tok) : Bool :=
  match t.tt with
  | .INDENT => false
  | .DEDENT => false
  | .NEWLINE => false
  | .COMMENT => false
  | .NL => false
  | .STRING => !st.isAtBol
  | _ => true

theorem step_emit (st : MState) (a : Tok) (h : emittedDirectly st a = true) :
    minifyStep st a = emitTok st a := by
  obtain ⟨att, ats⟩ := a
  cases att <;> simp_all [emittedDirectly, minifyStep]

/-- C2 (amended): between two consecutively emitted tokens `a`, `b`, `Minify`
emits exactly one separating space if and only if `a` is a NAME or NUMBER and
`b` is a NAME, a NUMBER, or a STRING whose text begins with `r` or `b`
(`spaceNeeded`); this is not equivalent to the claimed
would-re-tokenize-differently criterion. -/
theorem c2_space_characterization (p r : List Tok) (a b : Tok)
    (ha : emittedDirectly (stateFrom initState p) a = true)
    (hb : emittedDirectly (stateFrom (stateFrom initState p) [a]) b = true) :
    minifyFrom initState (p ++ a :: b :: r) =
      minifyFrom initState p ++
        ((if (stateFrom initState p).isAtBol then [spaces (stateFrom initState p).i] else []) ++
         (if spaceNeeded (stateFrom initState p).pt a then [[' ']] else []) ++
         ([a.ts] ++
          ((if spaceNeeded (some a.tt) b then [[' ']] else []) ++
           (b.ts :: minifyFrom ⟨(stateFrom initState p).i, false, false, some b.tt⟩ r)))) := by
  rw [minifyFrom_append]
  set st := stateFrom initState p with hst
  have h1 : stateFrom st [a] = (minifyStep st a).1 := by simp [stateFrom]
  have hsa : minifyStep st a = emitTok st a := step_emit st a ha
  rw [h1, hsa] at hb
  have hsb : minifyStep (emitTok st a).1 b = emitTok (emitTok st a).1 b :=
    step_emit _ b hb
  simp only [minifyFrom, hsa, hsb]
  simp [emitTok, List.append_assoc]

/-- Witness for the amended C2 at `del x` followed by `y=2`: exactly one
space between the NAME pair, none elsewhere. -/
theorem c2_space_characterization_witness :
    minifyFrom initState
        ([] ++ Tok.mk .NAME (("del").toList) :: Tok.mk .NAME (("x").toList) ::
          [⟨.NEWLINE, ("\n").toList⟩, ⟨.ENDMARKER, []⟩]) =
      minifyFrom initState [] ++
        ((if (stateFrom initState []).isAtBol then [spaces (stateFrom initState []).i] else []) ++
         (if spaceNeeded (stateFrom initState []).pt (Tok.mk .NAME (("del").toList)) then [[' ']] else []) ++
         ([("del").toList] ++
          ((if spaceNeeded (some .NAME) (Tok.mk .NAME (("x").toList)) then [[' ']] else []) ++
           ((("x").toList) :: minifyFrom ⟨(stateFrom initState []).i, false, false, some .NAME⟩
             [⟨.NEWLINE, ("\n").toList⟩, ⟨.ENDMARKER, []⟩])))) :=
  c2_space_characterization [] [⟨.NEWLINE, ("\n").toList⟩, ⟨.ENDMARKER, []⟩]
    (Tok.mk .NAME (("del").toList)) (Tok.mk .NAME (("x").toList))
    (by decide) (by decide)

/-! ### Claim C10: the memoryview input path -/

/-- Lower-case hexadecimal digit, as produced by `bytes.hex()`. -/
def hexDigitChar (n : Nat) : Char :=
  if n < 10 then Char.ofNat (48 + n) else Char.ofNat (87 + n)

/-- `buf.hex()`: the lower-case hex dump of a byte sequence. -/
def bytesHex (bs : List Nat) : Str :=
  bs.flatMap (fun b => [hexDigitChar (b / 16 % 16), hexDigitChar (b % 16)])

/-- The memoryview branch of `Minify` (source lines 62-66): the token source
is built from `buf.hex()` — the hex dump of the buffer — and then minified. -/
def minifyFromBuffer (bs : List Nat) : Option (List Str) :=
  (pyTokenize (bytesHex bs)).map minifyFragments

/-- The text branch of `Minify` on the same content. -/
def minifyFromText (s : Str) : Option (List Str) :=
  (pyTokenize s).map minifyFragments

/-- The bytes of the ASCII encoding of `x=1\n`. -/
def c10Bytes : List Nat := (("x=1\n").toList).map Char.toNat

/-! ### The canonical re-tokenization of `Minify`'s output

`canonAll ts` is the token stream that the output text of `Minify` on `ts`
re-tokenizes to when no adjacent emitted tokens merge: skipped tokens
disappear, INDENT texts become one space per level, inserted `pass`
statements appear as NAME/NEWLINE tokens.  It is tied to the actual
re-tokenization by a hypothesis discharged by evaluation in the witnesses. -/

/-- The token text `pass`. -/
def passTok : Str := ("pass").toList

/-- The tokens of the output text contributed by one input token. -/
def canonStep (st : MState) (t : Tok) : List Tok :=
  match t.tt with
  | .INDENT => [⟨.INDENT, spaces (st.i + 1)⟩]
  | .DEDENT =>
      if st.isEmptyIndent then
        [⟨.NAME, passTok⟩, ⟨.NEWLINE, ['\n']⟩, ⟨.DEDENT, []⟩]
      else [⟨.DEDENT, []⟩]
  | .NEWLINE => if st.isAtBol then [] else [⟨.NEWLINE, ['\n']⟩]
  | .COMMENT => []
  | .NL => []
  | .STRING => if st.isAtBol then [] else [t]
  | _ => [t]

def canonFrom (st : MState) : List Tok → List Tok
  | [] => []
  | t :: ts => canonStep st t ++ canonFrom (minifyStep st t).1 ts

/-- The full canonical re-tokenization, together with the tokens of the
final empty-indent `pass` fallback. -/
def canonAll (ts : List Tok) : List Tok :=
  canonFrom initState ts ++
    (if (stateFrom initState ts).isEmptyIndent then
      [⟨.NAME, passTok⟩, ⟨.NEWLINE, ['\n']⟩]
    else [])

/-- Well-formedness of a token stream relative to a machine state: every
INDENT is encountered at the beginning of a line (true of all streams the
standard tokenizer produces, which emit INDENT only at a line start). -/
def wfFrom (st : MState) : List Tok → Bool
  | [] => true
  | t :: ts =>
    (if t.tt == .INDENT then st.isAtBol else true) && wfFrom (minifyStep st t).1 ts

theorem canonFrom_append (st : MState) (a b : List Tok) :
    canonFrom st (a ++ b) = canonFrom st a ++ canonFrom (stateFrom st a) b := by
  induction a generalizing st with
  | nil => simp [canonFrom, stateFrom]
  | cons t ts ih => simp [canonFrom, stateFrom, ih]

theorem canon_step_facts (st : MState) (t : Tok)
    (hbp : st.isAtBol = true → st.pt = none)
    (hfb : st.isEmptyIndent = true → st.isAtBol = true)
    (hwf : t.tt = .INDENT → st.isAtBol = true) :
    joinS (minifyFrom st (canonStep st t)) = joinS (minifyStep st t).2
    ∧ stateFrom st (canonStep st t) = (minifyStep st t).1
    ∧ canonFrom st (canonStep st t) = canonStep st t
    ∧ ((minifyStep st t).1.isAtBol = true → (minifyStep st t).1.pt = none)
    ∧ ((minifyStep st t).1.isEmptyIndent = true → (minifyStep st t).1.isAtBol = true) := by
  obtain ⟨tt, tx⟩ := t
  obtain ⟨i, bol, flag, pt⟩ := st
  cases tt with
  | INDENT =>
      have hb : bol = true := hwf rfl
      subst hb
      simp [canonStep, minifyStep, minifyFrom, stateFrom, canonFrom, joinS, hbp]
  | DEDENT =>
      cases hf : flag with
      | false =>
          simp [canonStep, minifyStep, minifyFrom, stateFrom, canonFrom, joinS]
          exact hbp
      | true =>
          have hb : bol = true := hfb (by simp [hf])
          have hp : pt = none := hbp (by simp [hb])
          subst hb hp
          simp [canonStep, minifyStep, minifyFrom, stateFrom, canonFrom, joinS,
            emitTok, spaceNeeded, isNameOrNumber, passNl, passTok, hf]
  | NEWLINE =>
      cases hb : bol with
      | false => simp [canonStep, minifyStep, minifyFrom, stateFrom, canonFrom, joinS]
      | true =>
          have hp : pt = none := hbp (by simp [hb])
          subst hp hb
          simp [canonStep, minifyStep, minifyFrom, stateFrom, canonFrom, joinS, hfb]
  | COMMENT =>
      simp [canonStep, minifyStep, minifyFrom, stateFrom, canonFrom, joinS]
      exact ⟨hbp, hfb⟩
  | NL =>
      simp [canonStep, minifyStep, minifyFrom, stateFrom, canonFrom, joinS]
      exact ⟨hbp, hfb⟩
  | STRING =>
      cases hb : bol with
      | true =>
          subst hb
          simp [canonStep, minifyStep, minifyFrom, stateFrom, canonFrom, joinS]
          exact hbp rfl
      | false =>
          subst hb
          simp [canonStep, minifyStep, minifyFrom, stateFrom, canonFrom, joinS, emitTok]
  | NAME =>
      simp [canonStep, minifyStep, minifyFrom, stateFrom, canonFrom, joinS, emitTok]
  | NUMBER =>
      simp [canonStep, minifyStep, minifyFrom, stateFrom, canonFrom, joinS, emitTok]
  | OP =>
      simp [canonStep, minifyStep, minifyFrom, stateFrom, canonFrom, joinS, emitTok]
  | ENDMARKER =>
      simp [canonStep, minifyStep, minifyFrom, stateFrom, canonFrom, joinS, emitTok]

theorem canon_sim (ts : List Tok) : ∀ st : MState,
    (st.isAtBol = true → st.pt = none) →
    (st.isEmptyIndent = true → st.isAtBol = true) →
    wfFrom st ts = true →
    joinS (minifyFrom st (canonFrom st ts)) = joinS (minifyFrom st ts)
    ∧ stateFrom st (canonFrom st ts) = stateFrom st ts
    ∧ canonFrom st (canonFrom st ts) = canonFrom st ts := by
  induction ts with
  | nil => intro st _ _ _; simp [canonFrom, minifyFrom, stateFrom]
  | cons t ts ih =>
      intro st hbp hfb hwf
      rw [wfFrom, Bool.and_eq_true] at hwf
      obtain ⟨hw1, hw2⟩ := hwf
      have hind : t.tt = .INDENT → st.isAtBol = true := by
        intro h; simpa [h] using hw1
      obtain ⟨ha, hb, hc, hinv1, hinv2⟩ := canon_step_facts st t hbp hfb hind
      obtain ⟨iha, ihb, ihc⟩ := ih (minifyStep st t).1 hinv1 hinv2 hw2
      refine ⟨?_, ?_, ?_⟩
      · show joinS (minifyFrom st (canonStep st t ++ canonFrom (minifyStep st t).1 ts)) = _
        rw [minifyFrom_append, hb]
        simp only [joinS, List.flatten_append] at *
        rw [ha, iha]
        simp [minifyFrom, joinS]
      · show stateFrom st (canonStep st t ++ canonFrom (minifyStep st t).1 ts) = _
        rw [stateFrom_append, hb, ihb]
        simp [stateFrom]
      · show canonFrom st (canonStep st t ++ canonFrom (minifyStep st t).1 ts) = _
        rw [canonFrom_append, hb, hc, ihc]
        simp [canonFrom]

theorem inv_stateFrom (ts : List Tok) : ∀ st : MState,
    (st.isAtBol = true → st.pt = none) →
    (st.isEmptyIndent = true → st.isAtBol = true) →
    wfFrom st ts = true →
    ((stateFrom st ts).isAtBol = true → (stateFrom st ts).pt = none)
    ∧ ((stateFrom st ts).isEmptyIndent = true → (stateFrom st ts).isAtBol = true) := by
  induction ts with
  | nil => intro st h1 h2 _; exact ⟨h1, h2⟩
  | cons t ts ih =>
      intro st h1 h2 hwf
      rw [wfFrom, Bool.and_eq_true] at hwf
      obtain ⟨hw1, hw2⟩ := hwf
      have hind : t.tt = .INDENT → st.isAtBol = true := by
        intro h; simpa [h] using hw1
      obtain ⟨_, _, _, hinv1, hinv2⟩ := canon_step_facts st t h1 h2 hind
      exact ih (minifyStep st t).1 hinv1 hinv2 hw2

/-- `passNl` is `passTok` followed by a newline. -/
theorem passNl_eq : passNl = passTok ++ ['\n'] := by decide

/-- The fragment streams of `Minify` on a stream and on its canonical
re-tokenization join to the same output text. -/
theorem canon_fragments (ts : List Tok) (hwf : wfFrom initState ts = true) :
    joinS (minifyFragments (canonAll ts)) = joinS (minifyFragments ts) := by
  have hsim := canon_sim ts initState (by simp [initState]) (by simp [initState]) hwf
  obtain ⟨hjoin, hstate, _⟩ := hsim
  have hinv := inv_stateFrom ts initState (by simp [initState]) (by simp [initState]) hwf
  unfold canonAll minifyFragments
  cases hflag : (stateFrom initState ts).isEmptyIndent with
  | false =>
      simp only [Bool.false_eq_true, if_false, List.append_nil]
      rw [hstate]
      simp only [hflag, Bool.false_eq_true, if_false, List.append_nil]
      exact hjoin
  | true =>
      have hbol : (stateFrom initState ts).isAtBol = true := hinv.2 hflag
      have hpt : (stateFrom initState ts).pt = none := hinv.1 hbol
      simp only [if_true]
      rw [minifyFrom_append, stateFrom_append, hstate]
      set se := stateFrom initState ts with hse
      have hrun : minifyFrom se [⟨.NAME, passTok⟩, ⟨.NEWLINE, ['\n']⟩] =
          [spaces se.i, passTok, ['\n']] ∧
          stateFrom se [⟨.NAME, passTok⟩, ⟨.NEWLINE, ['\n']⟩] =
            ⟨se.i, true, false, none⟩ := by
        constructor
        · simp [minifyFrom, minifyStep, emitTok, hbol, hpt, spaceNeeded,
            isNameOrNumber]
        · simp [stateFrom, minifyStep, emitTok, hbol]
      rw [hrun.1, hrun.2]
      simp [joinS, hflag, passNl_eq]
      simpa [joinS] using hjoin

/-- C5 (amended): `minify` is idempotent on every valid input whose minified
output re-tokenizes exactly to the token stream the minifier emitted (its
canonical re-tokenization `canonAll`) — i.e. whenever no adjacent emitted
tokens merge during re-tokenization.  The counterexample shows the hypothesis
is necessary: in `x=1.real` the emitted NUMBER `1` and OP `.` merge. -/
theorem c5_idempotent_when_output_retokenizes (s : Str) (t : List Tok)
    (h1 : pyTokenize s = some t)
    (hwf : wfFrom initState t = true)
    (h2 : pyTokenize (joinS (minifyFragments t)) = some (canonAll t)) :
    (minStr s).bind minStr = minStr s := by
  have hs : minStr s = some (joinS (minifyFragments t)) := by simp [minStr, h1]
  rw [hs]
  show minStr (joinS (minifyFragments t)) = _
  rw [minStr, h2]
  show some (joinS (minifyFragments (canonAll t))) = _
  rw [canon_fragments t hwf]

/-- The token stream of `def f():` / ` "d"` (a function whose body is one
doc-string), as the tokenizer produces it. -/
def docTokens : List Tok :=
  [⟨.NAME, ("def").toList⟩, ⟨.NAME, ("f").toList⟩, ⟨.OP, ("(").toList⟩,
   ⟨.OP, (")").toList⟩, ⟨.OP, (":").toList⟩, ⟨.NEWLINE, ("\n").toList⟩,
   ⟨.INDENT, [' ']⟩, ⟨.STRING, ("\"d\"").toList⟩, ⟨.NEWLINE, ("\n").toList⟩,
   ⟨.DEDENT, []⟩, ⟨.ENDMARKER, []⟩]

/-- Witness for the amended C5 at `def f():` / ` "d"`. -/
theorem c5_idempotent_witness :
    (minStr (("def f():\n \"d\"\n").toList)).bind minStr =
      minStr (("def f():\n \"d\"\n").toList) :=
  c5_idempotent_when_output_retokenizes (("def f():\n \"d\"\n").toList) docTokens
    (by decide) (by decide) (by decide)

/-! ### Claim C1 (amended): token-level round trip -/

/-- The token sequence the amended C1 claim expects, written directly from
its words: the NAME/NUMBER/STRING/operator tokens of the input in order,
with STRING tokens at the beginning of a logical line removed, COMMENT and
NL tokens contributing nothing, and a `pass` NAME inserted for each block
emptied by minification (tracked by the pair of flags: at line start, block
empty so far).  Returns the tokens and the final empty-block flag. -/
def expSemFrom (bol flag : Bool) : List Tok → List Tok × Bool
  | [] => ([], flag)
  | t :: ts =>
    match t.tt with
    | .INDENT => expSemFrom bol true ts
    | .DEDENT =>
        if flag then
          ((⟨.NAME, passTok⟩ : Tok) :: (expSemFrom bol false ts).1,
           (expSemFrom bol false ts).2)
        else expSemFrom bol false ts
    | .NEWLINE => expSemFrom true flag ts
    | .COMMENT => expSemFrom bol flag ts
    | .NL => expSemFrom bol flag ts
    | .STRING =>
        if bol then expSemFrom bol flag ts
        else (t :: (expSemFrom false false ts).1, (expSemFrom false false ts).2)
    | _ =>
        ((if semKind t.tt then [t] else []) ++ (expSemFrom false false ts).1,
         (expSemFrom false false ts).2)

/-- The full expected semantic token sequence, including the final `pass`
for a block still open at the end of the stream. -/
def expSem (ts : List Tok) : List Tok :=
  (expSemFrom true false ts).1 ++
    (if (expSemFrom true false ts).2 then [⟨.NAME, passTok⟩] else [])

theorem semFilter_canon (ts : List Tok) : ∀ st : MState,
    semFilter (canonFrom st ts) = (expSemFrom st.isAtBol st.isEmptyIndent ts).1
    ∧ (stateFrom st ts).isEmptyIndent = (expSemFrom st.isAtBol st.isEmptyIndent ts).2 := by
  induction ts with
  | nil => intro st; simp [canonFrom, semFilter, expSemFrom, stateFrom]
  | cons t ts ih =>
      intro st
      obtain ⟨tt, tx⟩ := t
      show semFilter (canonStep st ⟨tt, tx⟩ ++ _) = _ ∧ _
      rw [semFilter, List.filter_append]
      cases tt with
      | INDENT =>
          simpa [canonStep, minifyStep, stateFrom, semFilter, expSemFrom, semKind]
            using ih ⟨st.i + 1, st.isAtBol, true, st.pt⟩
      | DEDENT =>
          cases hf : st.isEmptyIndent with
          | false =>
              simpa [canonStep, minifyStep, stateFrom, semFilter, expSemFrom,
                semKind, hf]
                using ih ⟨st.i - 1, st.isAtBol, st.isEmptyIndent, st.pt⟩
          | true =>
              simpa [canonStep, minifyStep, stateFrom, semFilter, expSemFrom,
                semKind, hf]
                using ih ⟨st.i - 1, st.isAtBol, false, st.pt⟩
      | NEWLINE =>
          cases hb : st.isAtBol with
          | false =>
              simpa [canonStep, minifyStep, stateFrom, semFilter, expSemFrom,
                semKind, hb]
                using ih ⟨st.i, true, st.isEmptyIndent, none⟩
          | true =>
              simpa [canonStep, minifyStep, stateFrom, semFilter, expSemFrom,
                semKind, hb]
                using ih ⟨st.i, true, st.isEmptyIndent, none⟩
      | COMMENT =>
          simpa [canonStep, minifyStep, stateFrom, semFilter, expSemFrom]
            using ih st
      | NL =>
          simpa [canonStep, minifyStep, stateFrom, semFilter, expSemFrom]
            using ih st
      | STRING =>
          cases hb : st.isAtBol with
          | true =>
              simpa [canonStep, minifyStep, stateFrom, semFilter, expSemFrom, hb]
                using ih st
          | false =>
              simpa [canonStep, minifyStep, emitTok, stateFrom, semFilter,
                expSemFrom, semKind, hb]
                using ih ⟨st.i, false, false, some .STRING⟩
      | NAME =>
          simpa [canonStep, minifyStep, emitTok, stateFrom, semFilter,
            expSemFrom, semKind]
            using ih ⟨st.i, false, false, some .NAME⟩
      | NUMBER =>
          simpa [canonStep, minifyStep, emitTok, stateFrom, semFilter,
            expSemFrom, semKind]
            using ih ⟨st.i, false, false, some .NUMBER⟩
      | OP =>
          simpa [canonStep, minifyStep, emitTok, stateFrom, semFilter,
            expSemFrom, semKind]
            using ih ⟨st.i, false, false, some .OP⟩
      | ENDMARKER =>
          simpa [canonStep, minifyStep, emitTok, stateFrom, semFilter,
            expSemFrom, semKind]
            using ih ⟨st.i, false, false, some .ENDMARKER⟩

/-- C1 (amended): whenever the minified output re-tokenizes to the emitted
token stream (no adjacent emitted tokens merge), its semantic
(NAME/NUMBER/STRING/operator) tokens are exactly the input's semantic tokens
in order, with every line-initial STRING removed (not only block-leading
ones), COMMENT/NL tokens contributing nothing, and one `pass` NAME token
inserted for each block emptied by minification. -/
theorem c1_roundtrip_token_equivalence (s : Str) (t : List Tok)
    (h1 : pyTokenize s = some t)
    (h2 : pyTokenize (joinS (minifyFragments t)) = some (canonAll t)) :
    (pyTokenize (joinS (minifyFragments t))).map semFilter = some (expSem t) := by
  rw [h2]
  show some (semFilter (canonAll t)) = _
  obtain ⟨hfilter, hflag⟩ := semFilter_canon t initState
  unfold canonAll expSem
  rw [semFilter, List.filter_append, ← semFilter, hfilter]
  have : (stateFrom initState t).isEmptyIndent =
      (expSemFrom true false t).2 := hflag
  rw [this]
  cases h : (expSemFrom true false t).2 <;>
    simp [semFilter, semKind, initState]

/-- Witness for the amended C1 at `def f():` / ` "d"`: the output re-tokenizes
to `def f ( ) : pass`, which is `expSem` of the input stream. -/
theorem c1_roundtrip_token_equivalence_witness :
    (pyTokenize (joinS (minifyFragments docTokens))).map semFilter =
      some (expSem docTokens) :=
  c1_roundtrip_token_equivalence (("def f():\n \"d\"\n").toList) docTokens
    (by decide) (by decide)

/-- C10: the buffer path is NOT equivalent to the text path.  For the source
`x=1\n`, the memoryview branch feeds the hex dump `783d310a` to the
tokenizer, and the fragments produced are those of `783 d310a` — not the
fragments produced for the text `x=1\n`.  (The code contradicts its own
intent, recorded in the adjacent comment that the buffer should behave like
its text, line 64-65 of the source.) -/
theorem c10_buffer_path_diverges :
    bytesHex c10Bytes = ("783d310a").toList
    ∧ (minifyFromBuffer c10Bytes).map joinS = some (("783 d310a\n").toList)
    ∧ (minifyFromText (("x=1\n").toList)).map joinS = some (("x=1\n").toList)
    ∧ minifyFromBuffer c10Bytes ≠ minifyFromText (("x=1\n").toList) := by
  decide

/-! ### The PostScript minifier (`POSTSCRIPT_TOKEN_RE`, `MinifyPostScript`) -/

/-- The whitespace class of `POSTSCRIPT_TOKEN_RE`:
`[\0\t\n\r\f ]` (note: not `\v`). -/
def psWsChar (c : Char) : Bool :=
  c == Char.ofNat 0 || c == '\t' || c == '\n' || c == '\r' ||
    c == Char.ofNat 12 || c == ' '

/-- The characters excluded from a bare (multi-character) token besides
whitespace: `%(){}<>[]`. -/
def psDelim (c : Char) : Bool :=
  c == '%' || c == '(' || c == ')' || c == '<' || c == '>' ||
    c == '[' || c == ']' || c == Char.ofNat 123 || c == Char.ofNat 125

/-- A character a bare token may consist of: `[^\0\t\n\r\f %(){}<>\[\]]`. -/
def psBareChar (c : Char) : Bool := !(psWsChar c) && !(psDelim c)

/-- Lex the string-literal body after the opening `(`:
`(?s:[^()\\]+|\\.)*\)` — runs of non-paren non-backslash characters or
backslash-escaped characters, terminated by `)`.  Returns the consumed
characters (closing paren included) and the rest; an unescaped nested `(`
fails. -/
def psLit : Str → Option (Str × Str)
  | [] => none
  | c :: rest =>
    if c == ')' then some ([c], rest)
    else if c == '(' then none
    else if c == '\\' then
      match rest with
      | [] => none
      | d :: rest2 => (psLit rest2).map (fun p => (c :: d :: p.1, p.2))
    else (psLit rest).map (fun p => (c :: p.1, p.2))

/-- A semantic token of the PostScript scanner: string literal, structural
bracket token, or bare token (comments and whitespace produce no token). -/
inductive PsTok where
  | lit (s : Str)
  | struct (s : Str)
  | bare (s : Str)
  deriving DecidableEq, Repr

theorem psLit_split : ∀ (s b r : Str), psLit s = some (b, r) → s = b ++ r := by
  intro s
  induction s using psLit.induct with
  | case1 => intro b r h; simp [psLit] at h
  | case2 d rest2 hd =>
      intro b r h
      rw [psLit.eq_def] at h
      simp [hd] at h
      simp [← h.1, ← h.2]
  | case3 d rest2 h1 h2 =>
      intro b r h; rw [psLit.eq_def] at h; simp [h1, h2] at h
  | case4 d h1 h2 h3 =>
      intro b r h; rw [psLit.eq_def] at h; simp [h1, h2, h3] at h
  | case5 d h1 h2 h3 d1 rest2 ih =>
      intro b r h
      rw [psLit.eq_def] at h
      simp [h1, h2, h3] at h
      obtain ⟨a, ha, hb⟩ := h
      rw [← hb]
      simp [ih a r ha]
  | case6 d rest2 h1 h2 h3 ih =>
      intro b r h
      rw [psLit.eq_def] at h
      simp [h1, h2, h3] at h
      obtain ⟨a, ha, hb⟩ := h
      rw [← hb]
      simp [ih a r ha]

theorem psLit_length : ∀ (s b r : Str), psLit s = some (b, r) → r.length < s.length := by
  intro s
  induction s using psLit.induct with
  | case1 => intro b r h; simp [psLit] at h
  | case2 d rest2 hd =>
      intro b r h
      rw [psLit.eq_def] at h
      simp [hd] at h
      obtain ⟨-, h2⟩ := h
      subst h2
      simp
  | case3 d rest2 h1 h2 =>
      intro b r h; rw [psLit.eq_def] at h; simp [h1, h2] at h
  | case4 d h1 h2 h3 =>
      intro b r h; rw [psLit.eq_def] at h; simp [h1, h2, h3] at h
  | case5 d h1 h2 h3 d1 rest2 ih =>
      intro b r h
      rw [psLit.eq_def] at h
      simp [h1, h2, h3] at h
      obtain ⟨a, ha, hb⟩ := h
      have := ih a r ha
      simp only [List.length_cons]
      omega
  | case6 d rest2 h1 h2 h3 ih =>
      intro b r h
      rw [psLit.eq_def] at h
      simp [h1, h2, h3] at h
      obtain ⟨a, ha, hb⟩ := h
      have := ih a r ha
      simp only [List.length_cons]
      omega

theorem psLit_append : ∀ (b u : Str), psLit b = some (b, []) →
    psLit (b ++ u) = some (b, u) := by
  intro b
  induction b using psLit.induct with
  | case1 => intro u h; simp [psLit] at h
  | case2 d rest2 hd =>
      intro u h
      rw [psLit.eq_def] at h
      simp [hd] at h
      subst h
      rw [psLit.eq_def]
      simp [hd]
  | case3 d rest2 h1 h2 =>
      intro u h; rw [psLit.eq_def] at h; simp [h1, h2] at h
  | case4 d h1 h2 h3 =>
      intro u h; rw [psLit.eq_def] at h; simp [h1, h2, h3] at h
  | case5 d h1 h2 h3 d1 rest2 ih =>
      intro u h
      rw [psLit.eq_def] at h
      simp [h1, h2, h3] at h
      have hih := ih u h
      rw [List.cons_append, List.cons_append, psLit.eq_def]
      simp [h1, h2, h3, hih]
  | case6 d rest2 h1 h2 h3 ih =>
      intro u h
      rw [psLit.eq_def] at h
      simp [h1, h2, h3] at h
      have hih := ih u h
      rw [List.cons_append, psLit.eq_def]
      simp [h1, h2, h3, hih]

theorem psLit_self : ∀ (s b r : Str), psLit s = some (b, r) →
    psLit b = some (b, []) := by
  intro s
  induction s using psLit.induct with
  | case1 => intro b r h; simp [psLit] at h
  | case2 d rest2 hd =>
      intro b r h
      rw [psLit.eq_def] at h
      simp [hd] at h
      rw [← h.1, psLit.eq_def]
      simp [hd]
  | case3 d rest2 h1 h2 =>
      intro b r h; rw [psLit.eq_def] at h; simp [h1, h2] at h
  | case4 d h1 h2 h3 =>
      intro b r h; rw [psLit.eq_def] at h; simp [h1, h2, h3] at h
  | case5 d h1 h2 h3 d1 rest2 ih =>
      intro b r h
      rw [psLit.eq_def] at h
      simp [h1, h2, h3] at h
      obtain ⟨a, ha, hb⟩ := h
      have hih := ih a r ha
      rw [← hb, psLit.eq_def]
      simp [h1, h2, h3, hih]
  | case6 d rest2 h1 h2 h3 ih =>
      intro b r h
      rw [psLit.eq_def] at h
      simp [h1, h2, h3] at h
      obtain ⟨a, ha, hb⟩ := h
      have hih := ih a r ha
      rw [← hb, psLit.eq_def]
      simp [h1, h2, h3, hih]

theorem length_dropWhile_le (p : Char → Bool) (l : Str) :
    (l.dropWhile p).length ≤ l.length := by
  induction l with
  | nil => simp
  | cons c cs ih =>
      by_cases h : p c
      · simp [List.dropWhile, h]; omega
      · simp [List.dropWhile, h]

/-- The scanner of `POSTSCRIPT_TOKEN_RE` over an input text: successive
non-overlapping matches, trying the alternatives in the regex's order at
each position (comment, whitespace, string literal, `<<`/`>>`/bracket,
bare token), dropping comments and whitespace; a position where none of
the five patterns matches (the final catch-all group) is an error, reported
as the remaining suffix from the offending character. -/
def psScan : Str → Except Str (List PsTok)
  | [] => .ok []
  | c :: rest =>
    if c == '%' then
      psScan (rest.dropWhile (fun d => !(d == '\r' || d == '\n')))
    else if psWsChar c then
      psScan (rest.dropWhile psWsChar)
    else if c == '(' then
      match hlit : psLit rest with
      | some (b, rest2) => (psScan rest2).map (fun ts => .lit ('(' :: b) :: ts)
      | none => .error (c :: rest)
    else if c == '<' then
      if rest.head? == some '<' then
        (psScan rest.tail).map (fun ts => .struct (("<<").toList) :: ts)
      else .error (c :: rest)
    else if c == '>' then
      if rest.head? == some '>' then
        (psScan rest.tail).map (fun ts => .struct ((">>").toList) :: ts)
      else .error (c :: rest)
    else if c == '[' || c == ']' || c == Char.ofNat 123 || c == Char.ofNat 125 then
      (psScan rest).map (fun ts => .struct [c] :: ts)
    else if psBareChar c then
      (psScan (rest.dropWhile psBareChar)).map
        (fun ts => .bare (c :: rest.takeWhile psBareChar) :: ts)
    else .error (c :: rest)
termination_by s => s.length
decreasing_by
  · have := length_dropWhile_le (fun d => !(d == '\r' || d == '\n')) rest
    simp only [List.length_cons]
    omega
  · have := length_dropWhile_le psWsChar rest
    simp only [List.length_cons]
    omega
  · have := psLit_length rest b rest2 hlit
    simp only [List.length_cons]
    omega
  · have : rest.tail.length ≤ rest.length := by
      cases rest <;> simp
    simp only [List.length_cons]
    omega
  · have : rest.tail.length ≤ rest.length := by
      cases rest <;> simp
    simp only [List.length_cons]
    omega
  · simp only [List.length_cons]
    omega
  · have := length_dropWhile_le psBareChar rest
    simp only [List.length_cons]
    omega

/-- The characters `)<>{}[]` tested against `output[-1][-1]`
(source line 170). -/
def closersStr : List Char :=
  [')', '<', '>', Char.ofNat 123, Char.ofNat 125, '[', ']']

/-- `output[-1][-1]`: the last character of the last emitted piece (the
sentinel piece `" "` makes it `' '` before anything real is emitted). -/
def outLastChar (out : List Str) : Char :=
  match out.getLast? with
  | some p => p.getLastD ' '
  | none => ' '

/-- The emission loop of `MinifyPostScript` (source lines 163-172): string
literals and structural tokens are appended verbatim; a bare token is
preceded by one space unless it begins with `/` or the last emitted
character is one of `)<>{}[]`. -/
def psEmitAll : List PsTok → List Str → List Str
  | [], out => out
  | .lit s :: ts, out => psEmitAll ts (out ++ [s])
  | .struct s :: ts, out => psEmitAll ts (out ++ [s])
  | .bare s :: ts, out =>
      if !(s.headD ' ' == '/') && !(closersStr.contains (outLastChar out)) then
        psEmitAll ts (out ++ [[' '], s])
      else
        psEmitAll ts (out ++ [s])

/-- `MinifyPostScript`: scan, emit with the sentinel piece `" "`, blank the
sentinel (`output[0] = ""`) and join; on an unmatched character, the error
carries the offending position and the 20-character snippet
`pscode[i : i + 20]` of the `ValueError` (source lines 173-175). -/
def MinifyPostScriptM (s : Str) : Except (Nat × Str) Str :=
  match psScan s with
  | .error rem => .error (s.length - rem.length, rem.take 20)
  | .ok ts => .ok (joinS ((psEmitAll ts [[' ']]).tail))

/-- The last character contributed by a token (used to track
`output[-1][-1]` token by token). -/
def psTokLast : PsTok → Char
  | .lit s => s.getLastD ' '
  | .struct s => s.getLastD ' '
  | .bare s => s.getLastD ' '

/-- The text emitted for one token given the previously emitted character:
the spacing rule of the C6 claim. -/
def renderTok (lastc : Char) : PsTok → Str
  | .lit s => s
  | .struct s => s
  | .bare s =>
      if !(s.headD ' ' == '/') && !(closersStr.contains lastc) then ' ' :: s
      else s

/-- The whole output text as a function of the token list and the initial
previous character (the sentinel `' '`). -/
def renderAll (lastc : Char) : List PsTok → Str
  | [] => []
  | t :: ts => renderTok lastc t ++ renderAll (psTokLast t) ts

theorem outLastChar_append (out : List Str) (s : Str) :
    outLastChar (out ++ [s]) = s.getLastD ' ' := by
  simp [outLastChar]

theorem psEmitAll_shape (ts : List PsTok) : ∀ out : List Str,
    ∃ app : List Str, psEmitAll ts out = out ++ app := by
  induction ts with
  | nil => intro out; exact ⟨[], by simp [psEmitAll]⟩
  | cons t ts ih =>
      intro out
      match t with
      | .lit s =>
          obtain ⟨app, happ⟩ := ih (out ++ [s])
          exact ⟨[s] ++ app, by simp [psEmitAll, happ]⟩
      | .struct s =>
          obtain ⟨app, happ⟩ := ih (out ++ [s])
          exact ⟨[s] ++ app, by simp [psEmitAll, happ]⟩
      | .bare s =>
          by_cases hc : (!(s.headD ' ' == '/') &&
              !(closersStr.contains (outLastChar out))) = true
          · obtain ⟨app, happ⟩ := ih (out ++ [[' '], s])
            refine ⟨[[' '], s] ++ app, ?_⟩
            rw [show psEmitAll (.bare s :: ts) out =
                if !(s.headD ' ' == '/') && !(closersStr.contains (outLastChar out)) then
                  psEmitAll ts (out ++ [[' '], s])
                else psEmitAll ts (out ++ [s]) from rfl]
            rw [if_pos hc, happ]
            simp
          · obtain ⟨app, happ⟩ := ih (out ++ [s])
            refine ⟨[s] ++ app, ?_⟩
            rw [show psEmitAll (.bare s :: ts) out =
                if !(s.headD ' ' == '/') && !(closersStr.contains (outLastChar out)) then
                  psEmitAll ts (out ++ [[' '], s])
                else psEmitAll ts (out ++ [s]) from rfl]
            rw [if_neg hc, happ]
            simp

theorem psEmitAll_join (ts : List PsTok) : ∀ out : List Str,
    joinS (psEmitAll ts out) = joinS out ++ renderAll (outLastChar out) ts := by
  induction ts with
  | nil => intro out; simp [psEmitAll, renderAll]
  | cons t ts ih =>
      intro out
      match t with
      | .lit s =>
          rw [show psEmitAll (.lit s :: ts) out = psEmitAll ts (out ++ [s]) from rfl,
            ih (out ++ [s]), outLastChar_append]
          simp [renderAll, renderTok, psTokLast, joinS]
      | .struct s =>
          rw [show psEmitAll (.struct s :: ts) out = psEmitAll ts (out ++ [s]) from rfl,
            ih (out ++ [s]), outLastChar_append]
          simp [renderAll, renderTok, psTokLast, joinS]
      | .bare s =>
          rw [show psEmitAll (.bare s :: ts) out =
              if !(s.headD ' ' == '/') && !(closersStr.contains (outLastChar out)) then
                psEmitAll ts (out ++ [[' '], s])
              else psEmitAll ts (out ++ [s]) from rfl]
          rw [show renderAll (outLastChar out) (.bare s :: ts) =
              (if !(s.headD ' ' == '/') && !(closersStr.contains (outLastChar out)) then
                ' ' :: s else s) ++ renderAll (psTokLast (.bare s)) ts from rfl]
          by_cases hc : (!(s.headD ' ' == '/') &&
              !(closersStr.contains (outLastChar out))) = true
          · rw [if_pos hc, if_pos hc, ih (out ++ [[' '], s])]
            have h2 : outLastChar (out ++ [[' '], s]) = s.getLastD ' ' := by
              rw [show out ++ [[' '], s] = (out ++ [[' ']]) ++ [s] by simp,
                outLastChar_append]
            rw [h2]
            simp [joinS, psTokLast]
          · rw [if_neg hc, if_neg hc, ih (out ++ [s]), outLastChar_append]
            simp [joinS, psTokLast]

/-- The minifier's output text is `renderAll` from the sentinel character. -/
theorem psMinify_render (s : Str) (ts : List PsTok) (h : psScan s = .ok ts) :
    MinifyPostScriptM s = .ok (renderAll ' ' ts) := by
  unfold MinifyPostScriptM
  rw [h]
  obtain ⟨app, happ⟩ := psEmitAll_shape ts [[' ']]
  have hj := psEmitAll_join ts [[' ']]
  have hol : outLastChar [[' ']] = ' ' := rfl
  rw [happ, hol] at hj
  have hj' : joinS app = renderAll ' ' ts := by
    simpa [joinS] using hj
  show Except.ok (joinS ((psEmitAll ts [[' ']]).tail)) = _
  rw [happ]
  simp only [List.singleton_append, List.tail_cons]
  rw [hj']

/-- Shape invariant of the tokens the scanner produces: a literal is `(`,
a self-contained literal body, `)`; a structural token is one of the six
structural texts; a bare token is a nonempty run of bare characters. -/
def wfTok : PsTok → Bool
  | .lit s =>
      match s with
      | c :: rest => c == '(' && (psLit rest == some (rest, ([] : Str)))
      | [] => false
  | .struct s =>
      s == ("<<").toList || s == ((">>").toList) || s == ['['] || s == [']'] ||
        s == [Char.ofNat 123] || s == [Char.ofNat 125]
  | .bare s => !s.isEmpty && s.all psBareChar

set_option maxHeartbeats 2000000 in
theorem psScan_wf : ∀ (s : Str) (ts : List PsTok), psScan s = .ok ts →
    ∀ t ∈ ts, wfTok t = true := by
  intro s
  induction s using psScan.induct with
  | case1 =>
      intro ts h t ht
      rw [psScan.eq_def] at h
      simp at h
      subst h
      simp at ht
  | case2 c rest h1 ih =>
      intro ts h t ht
      rw [psScan.eq_def] at h
      simp only [h1, if_true] at h
      exact ih ts h t ht
  | case3 c rest h1 h2 ih =>
      intro ts h t ht
      rw [psScan.eq_def] at h
      simp only [h1, h2, if_true, if_false, Bool.false_eq_true] at h
      exact ih ts h t ht
  | case4 c rest h1 h2 h3 b rest2 hlit ih =>
      intro ts h t ht
      rw [psScan.eq_def] at h
      simp only [h1, h2, h3, if_true, if_false, Bool.false_eq_true] at h
      split at h
      next b2 rest2b heq =>
        rw [hlit] at heq
        simp only [Option.some.injEq, Prod.mk.injEq] at heq
        obtain ⟨rfl, rfl⟩ := heq
        cases hx : psScan rest2 with
        | error e => rw [hx] at h; simp [Except.map] at h
        | ok ts' =>
            rw [hx] at h
            simp [Except.map] at h
            subst h
            rcases List.mem_cons.mp ht with rfl | hmem
            · have hself := psLit_self rest b rest2 hlit
              simp [wfTok, hself]
            · exact ih ts' hx t hmem
      next heq => rw [hlit] at heq; simp at heq
  | case5 c rest h1 h2 h3 hnone =>
      intro ts h t ht
      rw [psScan.eq_def] at h
      simp only [h1, h2, h3, if_true, if_false, Bool.false_eq_true] at h
      split at h
      next b2 rest2b heq => rw [hnone] at heq; simp at heq
      next heq => simp at h
  | case6 c rest h1 h2 h3 h4 h5 ih =>
      intro ts h t ht
      rw [psScan.eq_def] at h
      simp only [h1, h2, h3, h4, h5, if_true, if_false, Bool.false_eq_true] at h
      cases hx : psScan rest.tail with
      | error e => rw [hx] at h; simp [Except.map] at h
      | ok ts' =>
          rw [hx] at h
          simp [Except.map] at h
          subst h
          rcases List.mem_cons.mp ht with rfl | hmem
          · decide
          · exact ih ts' hx t hmem
  | case7 c rest h1 h2 h3 h4 h5 =>
      intro ts h t ht
      rw [psScan.eq_def] at h
      simp only [h1, h2, h3, h4, h5, if_true, if_false, Bool.false_eq_true] at h
      exact Except.noConfusion h
  | case8 c rest h1 h2 h3 h4 h5 h6 ih =>
      intro ts h t ht
      rw [psScan.eq_def] at h
      simp only [h1, h2, h3, h4, h5, h6, if_true, if_false, Bool.false_eq_true] at h
      cases hx : psScan rest.tail with
      | error e => rw [hx] at h; simp [Except.map] at h
      | ok ts' =>
          rw [hx] at h
          simp [Except.map] at h
          subst h
          rcases List.mem_cons.mp ht with rfl | hmem
          · decide
          · exact ih ts' hx t hmem
  | case9 c rest h1 h2 h3 h4 h5 h6 =>
      intro ts h t ht
      rw [psScan.eq_def] at h
      simp only [h1, h2, h3, h4, h5, h6, if_true, if_false, Bool.false_eq_true] at h
      exact Except.noConfusion h
  | case10 c rest h1 h2 h3 h4 h5 h6 ih =>
      intro ts h t ht
      rw [psScan.eq_def] at h
      simp only [h1, h2, h3, h4, h5, h6, if_true, if_false, Bool.false_eq_true] at h
      cases hx : psScan rest with
      | error e => rw [hx] at h; simp [Except.map] at h
      | ok ts' =>
          rw [hx] at h
          simp [Except.map] at h
          subst h
          rcases List.mem_cons.mp ht with rfl | hmem
          · simp only [Bool.or_eq_true, beq_iff_eq] at h6
            rcases h6 with ((rfl | rfl) | rfl) | rfl <;> decide
          · exact ih ts' hx t hmem
  | case11 c rest h1 h2 h3 h4 h5 h6 h7 ih =>
      intro ts h t ht
      rw [psScan.eq_def] at h
      simp only [h1, h2, h3, h4, h5, h6, h7, if_true, if_false, Bool.false_eq_true] at h
      cases hx : psScan (rest.dropWhile psBareChar) with
      | error e => rw [hx] at h; simp [Except.map] at h
      | ok ts' =>
          rw [hx] at h
          simp [Except.map] at h
          subst h
          rcases List.mem_cons.mp ht with rfl | hmem
          · simp [wfTok, h7, List.all_takeWhile]
          · exact ih ts' hx t hmem
  | case12 c rest h1 h2 h3 h4 h5 h6 h7 =>
      intro ts h t ht
      rw [psScan.eq_def] at h
      simp only [h1, h2, h3, h4, h5, h6, h7, if_true, if_false, Bool.false_eq_true] at h
      exact Except.noConfusion h

theorem bare_not_special (c : Char) (h : psBareChar c = true) :
    (c == '%') = false ∧ psWsChar c = false ∧ (c == '(') = false ∧
      (c == '<') = false ∧ (c == '>') = false ∧
      (c == '[' || c == ']' || c == Char.ofNat 123 || c == Char.ofNat 125) = false := by
  simp only [psBareChar, Bool.and_eq_true, Bool.not_eq_true'] at h
  obtain ⟨hw, hd⟩ := h
  simp only [psDelim, Bool.or_eq_false_iff] at hd
  exact ⟨hd.1.1.1.1.1.1.1.1, hw, hd.1.1.1.1.1.1.1.2, hd.1.1.1.1.1.2, hd.1.1.1.1.2,
    by simp [hd.1.1.1.2, hd.1.1.2, hd.1.2, hd.2]⟩

theorem psBareChar_not_closer (c : Char) (h : psBareChar c = true) :
    closersStr.contains c = false := by
  by_contra hc
  simp only [Bool.not_eq_false] at hc
  have hm : c ∈ closersStr := by simpa using hc
  simp only [closersStr, List.mem_cons, List.not_mem_nil, or_false] at hm
  rcases hm with rfl | rfl | rfl | rfl | rfl | rfl | rfl <;>
    exact absurd h (by decide)

theorem takeWhile_append_all (p : Char → Bool) : ∀ (l u : Str), l.all p = true →
    (∀ c, u.head? = some c → p c = false) →
    (l ++ u).takeWhile p = l ∧ (l ++ u).dropWhile p = u := by
  intro l
  induction l with
  | nil =>
      intro u _ hu
      cases u with
      | nil => simp
      | cons c u' =>
          have := hu c rfl
          simp [List.takeWhile, List.dropWhile, this]
  | cons c l' ih =>
      intro u hl hu
      simp only [List.all_cons, Bool.and_eq_true] at hl
      have h2 := ih u hl.2 hu
      simp [List.takeWhile, List.dropWhile, hl.1, h2.1, h2.2]

/-- Whether a token list begins with a bare token whose text starts
with `/`. -/
def bareHeadSlash : List PsTok → Bool
  | .bare b :: _ => b.headD ' ' == '/'
  | .lit _ :: _ => false
  | .struct _ :: _ => false
  | [] => false

/-- The per-token condition: a bare token must not be followed by a bare
token beginning with `/`. -/
def bareGuard : PsTok → List PsTok → Bool
  | .bare _, ts => !(bareHeadSlash ts)
  | .lit _, _ => true
  | .struct _, _ => true

/-- No bare token beginning with `/` directly follows another bare token:
the condition under which the minified output re-tokenizes to the same
bare tokens (otherwise the two texts fuse, since no space is put before a
`/`-token). -/
def noBareSlashAfterBare : List PsTok → Bool
  | [] => true
  | t :: ts => bareGuard t ts && noBareSlashAfterBare ts

theorem noBSAB_tail (t : PsTok) (ts : List PsTok)
    (h : noBareSlashAfterBare (t :: ts) = true) :
    noBareSlashAfterBare ts = true := by
  rw [noBareSlashAfterBare, Bool.and_eq_true] at h
  exact h.2

theorem noBSAB_head (a b : Str) (ts : List PsTok)
    (h : noBareSlashAfterBare (.bare a :: .bare b :: ts) = true) :
    (b.headD ' ' == '/') = false := by
  rw [noBareSlashAfterBare, Bool.and_eq_true] at h
  have := h.1
  simpa [bareGuard, bareHeadSlash] using this

theorem render_head (lastc : Char) (ts : List PsTok)
    (hwf : ∀ t ∈ ts, wfTok t = true)
    (hsl : bareHeadSlash ts = false)
    (hcl : closersStr.contains lastc = false) :
    ∀ c, (renderAll lastc ts).head? = some c → psBareChar c = false := by
  intro c hc
  match ts with
  | [] => simp [renderAll] at hc
  | .lit s :: ts' =>
      have hw := hwf _ (List.mem_cons_self _ _)
      match s, hw with
      | c0 :: body, hw =>
          simp only [wfTok, Bool.and_eq_true, beq_iff_eq] at hw
          obtain ⟨rfl, -⟩ := hw
          simp only [renderAll, renderTok, List.cons_append, List.head?] at hc
          injection hc with hc
          subst hc
          decide
      | [], hw => simp [wfTok] at hw
  | .struct s :: ts' =>
      have hw := hwf _ (List.mem_cons_self _ _)
      simp only [wfTok, Bool.or_eq_true, beq_iff_eq] at hw
      rcases hw with ((((rfl | rfl) | rfl) | rfl) | rfl) | rfl <;>
        · simp only [renderAll, renderTok, List.cons_append, List.head?] at hc
          injection hc with hc
          subst hc
          decide
  | .bare b :: ts' =>
      have hsl' : (b.headD ' ' == '/') = false := by simpa [bareHeadSlash] using hsl
      simp only [renderAll, renderTok, hsl', hcl, Bool.not_false, Bool.and_self,
        if_true, List.cons_append, List.head?] at hc
      injection hc with hc
      subst hc
      decide

theorem psScan_bare_run (c0 : Char) (b' rest : Str)
    (hc0 : psBareChar c0 = true) (hb' : b'.all psBareChar = true)
    (hrest : ∀ c, rest.head? = some c → psBareChar c = false) :
    psScan ((c0 :: b') ++ rest) =
      (psScan rest).map (fun ts => .bare (c0 :: b') :: ts) := by
  obtain ⟨hm, hw, hp, hlt, hgt, hbr⟩ := bare_not_special c0 hc0
  rw [List.cons_append, psScan.eq_def]
  simp only [hm, hw, hp, hlt, hgt, hbr, hc0, if_true, if_false, Bool.false_eq_true]
  obtain ⟨ht, hd⟩ := takeWhile_append_all psBareChar b' rest hb' hrest
  rw [ht, hd]

theorem psScan_lit_run (body rest : Str) (hb : psLit body = some (body, [])) :
    psScan (('(' :: body) ++ rest) =
      (psScan rest).map (fun ts => .lit ('(' :: body) :: ts) := by
  rw [List.cons_append, psScan.eq_def]
  have happ := psLit_append body rest hb
  simp only [show (('(' : Char) == '%') = false by decide,
    show psWsChar '(' = false by decide,
    show (('(' : Char) == '(') = true by decide,
    if_true, if_false, Bool.false_eq_true]
  split
  next b2 rest2b heq =>
    rw [happ] at heq
    simp only [Option.some.injEq, Prod.mk.injEq] at heq
    obtain ⟨rfl, rfl⟩ := heq
    rfl
  next heq => rw [happ] at heq; simp at heq

theorem all_getLastD (p : Char → Bool) : ∀ (l : Str) (d : Char), l ≠ [] →
    l.all p = true → p (l.getLastD d) = true := by
  intro l
  induction l with
  | nil => simp
  | cons c l' ih =>
      intro d _ hall
      simp only [List.all_cons, Bool.and_eq_true] at hall
      rw [List.getLastD_cons]
      cases l' with
      | nil => simpa [List.getLastD] using hall.1
      | cons e l'' => exact ih c (by simp) hall.2

theorem psScan_ltlt_run (rest : Str) :
    psScan (('<' :: '<' :: []) ++ rest) =
      (psScan rest).map (fun ts => .struct (("<<").toList) :: ts) := by
  rw [List.cons_append, List.cons_append, List.nil_append, psScan.eq_def]
  simp only [show (('<' : Char) == '%') = false by decide,
    show psWsChar '<' = false by decide,
    show (('<' : Char) == '(') = false by decide,
    show (('<' : Char) == '<') = true by decide,
    List.head?, List.tail, if_true, if_false, Bool.false_eq_true]
  simp

theorem psScan_gtgt_run (rest : Str) :
    psScan (('>' :: '>' :: []) ++ rest) =
      (psScan rest).map (fun ts => .struct ((">>").toList) :: ts) := by
  rw [List.cons_append, List.cons_append, List.nil_append, psScan.eq_def]
  simp only [show (('>' : Char) == '%') = false by decide,
    show psWsChar '>' = false by decide,
    show (('>' : Char) == '(') = false by decide,
    show (('>' : Char) == '<') = false by decide,
    show (('>' : Char) == '>') = true by decide,
    List.head?, List.tail, if_true, if_false, Bool.false_eq_true]
  simp

theorem psScan_bracket_run (c : Char) (rest : Str)
    (hc : (c == '[' || c == ']' || c == Char.ofNat 123 || c == Char.ofNat 125) = true) :
    psScan ([c] ++ rest) = (psScan rest).map (fun ts => .struct [c] :: ts) := by
  simp only [Bool.or_eq_true, beq_iff_eq] at hc
  rcases hc with ((rfl | rfl) | rfl) | rfl <;>
    · rw [List.singleton_append, psScan.eq_def]
      simp [psWsChar, psBareChar, psDelim]

theorem psScan_render : ∀ (ts : List PsTok) (lastc : Char),
    (∀ t ∈ ts, wfTok t = true) → noBareSlashAfterBare ts = true →
    psScan (renderAll lastc ts) = .ok ts := by
  intro ts
  induction ts with
  | nil => intro lastc _ _; simp [renderAll, psScan]
  | cons t ts' ih =>
      intro lastc hwf hn
      have hwt := hwf t (List.mem_cons_self _ _)
      have hwf' : ∀ u ∈ ts', wfTok u = true := fun u hu => hwf u (by simp [hu])
      have hn' : noBareSlashAfterBare ts' = true := noBSAB_tail t ts' hn
      match t with
      | .lit s =>
          match s, hwt with
          | c0 :: body, hwt =>
              simp only [wfTok, Bool.and_eq_true, beq_iff_eq] at hwt
              obtain ⟨rfl, hbody⟩ := hwt
              show psScan (('(' :: body) ++ renderAll _ ts') = _
              rw [psScan_lit_run body _ hbody, ih _ hwf' hn']
              rfl
          | [], hwt => simp [wfTok] at hwt
      | .struct s =>
          simp only [wfTok, Bool.or_eq_true, beq_iff_eq] at hwt
          rcases hwt with ((((rfl | rfl) | rfl) | rfl) | rfl) | rfl
          · show psScan (('<' :: '<' :: []) ++ renderAll _ ts') = _
            rw [psScan_ltlt_run, ih _ hwf' hn']
            rfl
          · show psScan (('>' :: '>' :: []) ++ renderAll _ ts') = _
            rw [psScan_gtgt_run, ih _ hwf' hn']
            rfl
          · show psScan (['['] ++ renderAll _ ts') = _
            rw [psScan_bracket_run '[' _ (by decide), ih _ hwf' hn']
            rfl
          · show psScan ([']'] ++ renderAll _ ts') = _
            rw [psScan_bracket_run ']' _ (by decide), ih _ hwf' hn']
            rfl
          · show psScan ([Char.ofNat 123] ++ renderAll _ ts') = _
            rw [psScan_bracket_run (Char.ofNat 123) _ (by decide), ih _ hwf' hn']
            rfl
          · show psScan ([Char.ofNat 125] ++ renderAll _ ts') = _
            rw [psScan_bracket_run (Char.ofNat 125) _ (by decide), ih _ hwf' hn']
            rfl
      | .bare b =>
          simp only [wfTok, Bool.and_eq_true] at hwt
          obtain ⟨hne, hall⟩ := hwt
          match b, hne with
          | c0 :: b', _ =>
              simp only [List.all_cons, Bool.and_eq_true] at hall
              obtain ⟨hc0, hb'⟩ := hall
              have hcl : closersStr.contains (psTokLast (.bare (c0 :: b'))) = false := by
                apply psBareChar_not_closer
                exact all_getLastD psBareChar (c0 :: b') ' ' (by simp)
                  (by simp [List.all_cons, hc0, hb'])
              have hsl : bareHeadSlash ts' = false := by
                rw [noBareSlashAfterBare, Bool.and_eq_true] at hn
                simpa [bareGuard] using hn.1
              have hrest := render_head (psTokLast (.bare (c0 :: b'))) ts' hwf' hsl hcl
              show psScan (renderTok lastc (.bare (c0 :: b')) ++ renderAll _ ts') = _
              rw [show renderTok lastc (.bare (c0 :: b')) =
                  if !((c0 :: b').headD ' ' == '/') && !(closersStr.contains lastc) then
                    ' ' :: (c0 :: b')
                  else (c0 :: b') from rfl]
              by_cases hsp : (!((c0 :: b').headD ' ' == '/') &&
                  !(closersStr.contains lastc)) = true
              · rw [if_pos hsp]
                rw [show (' ' :: (c0 :: b')) ++
                    renderAll (psTokLast (.bare (c0 :: b'))) ts' =
                    ' ' :: ((c0 :: b') ++ renderAll (psTokLast (.bare (c0 :: b'))) ts')
                    from rfl]
                rw [psScan.eq_def]
                simp only [show ((' ' : Char) == '%') = false by decide,
                  show psWsChar ' ' = true by decide,
                  if_true, if_false, Bool.false_eq_true]
                have hc0w : psWsChar c0 = false := (bare_not_special c0 hc0).2.1
                rw [show List.dropWhile psWsChar
                    ((c0 :: b') ++ renderAll (psTokLast (.bare (c0 :: b'))) ts') =
                    (c0 :: b') ++ renderAll (psTokLast (.bare (c0 :: b'))) ts'
                    from by simp [List.dropWhile, hc0w]]
                rw [psScan_bare_run c0 b' _ hc0 hb' hrest, ih _ hwf' hn']
                rfl
              · rw [if_neg hsp]
                rw [psScan_bare_run c0 b' _ hc0 hb' hrest, ih _ hwf' hn']
                rfl

/-! ### Claims C6 and C7 -/

/-- C6 counterexample: for the input `a /b` (two bare tokens, the second
beginning with `/`), the minifier emits `a/b` with no separator (output
` a/b` with the leading sentinel-induced space), which re-tokenizes to
the single bare token `a/b` — not the two bare tokens of the input with
byte-identical texts. -/
theorem c6_counterexample :
    psScan (("a /b").toList) = .ok [PsTok.bare ['a'], PsTok.bare ['/', 'b']]
    ∧ MinifyPostScriptM (("a /b").toList) = .ok ((" a/b").toList)
    ∧ psScan ((" a/b").toList) = .ok [PsTok.bare ['a', '/', 'b']]
    ∧ ¬ ([PsTok.bare ['a', '/', 'b']] =
        [PsTok.bare ['a'], PsTok.bare ['/', 'b']]) := by
  refine ⟨?_, ?_, ?_, by decide⟩
  · rw [show ("a /b").toList = ['a', ' ', '/', 'b'] from rfl]
    simp [psScan, psWsChar, psDelim, psBareChar, Except.map]
  · rw [show ("a /b").toList = ['a', ' ', '/', 'b'] from rfl]
    unfold MinifyPostScriptM
    simp [psScan, psWsChar, psDelim, psBareChar, Except.map, psEmitAll,
      outLastChar, closersStr, joinS]
  · rw [show (" a/b").toList = [' ', 'a', '/', 'b'] from rfl]
    simp [psScan, psWsChar, psDelim, psBareChar, Except.map]

/-- C6 (amended): for every supported input in which no bare token beginning
with `/` directly follows another bare token, `MinifyPostScript` succeeds and
its output re-tokenizes to exactly the same sequence of string-literal,
structural and bare tokens with byte-identical texts, comments and
whitespace removed; the output is the token texts concatenated with a single
space before a bare token exactly when the token does not begin with `/` and
the previously emitted character (the sentinel space at the start) is not
one of `)<>{}[]` (this is `renderAll` from the sentinel `' '`). -/
theorem c6_bracket_roundtrip (s : Str) (ts : List PsTok)
    (h : psScan s = .ok ts)
    (hn : noBareSlashAfterBare ts = true) :
    MinifyPostScriptM s = .ok (renderAll ' ' ts)
    ∧ psScan (renderAll ' ' ts) = .ok ts :=
  ⟨psMinify_render s ts h, psScan_render ts ' ' (psScan_wf s ts h) hn⟩

/-- The token list of the C6 witness input `/a dup { pop } % c`. -/
def c6wts : List PsTok :=
  [.bare ['/', 'a'], .bare ['d', 'u', 'p'], .struct [Char.ofNat 123],
   .bare ['p', 'o', 'p'], .struct [Char.ofNat 125]]

/-- Witness for the amended C6: `/a dup { pop } % c` minifies to
`/a dup{pop}` (sentinel space rule included), which re-tokenizes to the
same five tokens. -/
theorem c6_bracket_roundtrip_witness :
    MinifyPostScriptM (("/a dup { pop } % c").toList) = .ok (renderAll ' ' c6wts)
    ∧ psScan (renderAll ' ' c6wts) = .ok c6wts :=
  c6_bracket_roundtrip (("/a dup { pop } % c").toList) c6wts
    (by
      rw [show ("/a dup { pop } % c").toList =
        ['/', 'a', ' ', 'd', 'u', 'p', ' ', Char.ofNat 123, ' ', 'p', 'o', 'p',
         ' ', Char.ofNat 125, ' ', '%', ' ', 'c'] from rfl]
      simp [psScan, psWsChar, psDelim, psBareChar, Except.map, c6wts])
    (by decide)

/-- C7: an input with a character matched by none of the recognized patterns
makes `MinifyPostScript` raise, identifying the offending position and the
20-character snippet from it, and it never returns output for such an
input. -/
theorem c7_unknown_syntax_fatal (s rem : Str) (h : psScan s = .error rem) :
    MinifyPostScriptM s = .error (s.length - rem.length, rem.take 20)
    ∧ ∀ o, MinifyPostScriptM s ≠ .ok o := by
  constructor
  · unfold MinifyPostScriptM
    rw [h]
  · intro o
    unfold MinifyPostScriptM
    rw [h]
    simp

/-- Witness for C7 at `(a(b)c)`: the string literal with an unescaped nested
paren matches no pattern at position 0, and the minifier errors there with
the whole input as snippet, producing no output. -/
theorem c7_unknown_syntax_fatal_witness :
    MinifyPostScriptM (("(a(b)c)").toList) =
      .error (0, ("(a(b)c)").toList)
    ∧ ∀ o, MinifyPostScriptM (("(a(b)c)").toList) ≠ .ok o := by
  have h : psScan (("(a(b)c)").toList) = .error (("(a(b)c)").toList) := by
    rw [show ("(a(b)c)").toList = ['(', 'a', '(', 'b', ')', 'c', ')'] from rfl]
    rw [psScan.eq_def]
    simp [psWsChar, psLit]
  have h2 := c7_unknown_syntax_fatal (("(a(b)c)").toList) (("(a(b)c)").toList) h
  constructor
  · have := h2.1
    simpa using this
  · exact h2.2

/-! ### Claim C8: the procsets table serializer -/

/-- Errors of `MinifyPostScriptProcsets`: a scan error from the literal
minifier, the `Unexpected %% in minified pscode` check, or the
`assert "'''" not in pscodes_str`. -/
inductive MpsErr where
  | scan (e : Nat × Str)
  | pctpct
  | tripleQuote
  deriving DecidableEq, Repr

/-- `'%%'`, the delimiter checked against each minified literal. -/
def pctpct : Str := ['%', '%']

/-- Minify the value of each kept table entry in order, propagating the
first error and rejecting a minified value containing `%%`
(source lines 188-195). -/
def minifyValues : List (Str × Str) → Except MpsErr (List Str)
  | [] => .ok []
  | (_, v) :: rest =>
      match MinifyPostScriptM v with
      | .error e => .error (.scan e)
      | .ok m =>
          if hasInfix pctpct m then .error .pctpct
          else (minifyValues rest).map (m :: ·)

/-- `sep.join pieces`. -/
def joinWith (sep : Str) : List Str → Str
  | [] => []
  | [x] => x
  | x :: xs => x ++ sep ++ joinWith sep xs

/-- Python `str.split(sep)` for a non-empty separator: greedy left-to-right
non-overlapping occurrences.  `fuel` bounds the steps (always called with
more fuel than characters). -/
def pySplitGo (sep : Str) (acc : Str) : Nat → Str → List Str
  | 0, _ => [acc.reverse]
  | _ + 1, [] => [acc.reverse]
  | fuel + 1, c :: rest =>
      if sep.isPrefixOf (c :: rest) then
        acc.reverse :: pySplitGo sep [] fuel ((c :: rest).drop sep.length)
      else pySplitGo sep (c :: acc) fuel rest

def pySplit (sep s : Str) : List Str := pySplitGo sep [] (s.length + 1) s

/-- Three single-quote characters. -/
def tq : Str := [sq, sq, sq]

/-- `MinifyPostScriptProcsets` from the point after the definitions table is
loaded (the `compile`/`exec` of the table source is an external step): the
entries are the name/value pairs of the globals dict in sorted-key order,
names starting with `__` are dropped, each value is minified, the values are
joined with `\n%%` and a trailing newline, and the result is the generated
assignment text `names=r'''blob'''.split('%%%%')` — the f-string of source
line 200 writes four percent characters into the split call.  Empty table
returns the empty string. -/
def MinifyPostScriptProcsetsM (entries : List (Str × Str)) : Except MpsErr Str := do
  let kept := entries.filter (fun e => !((("__").toList).isPrefixOf e.1))
  let names := kept.map (fun e => e.1)
  let pscodes ← minifyValues kept
  if pscodes.isEmpty then
    return []
  else
    let pscodesStr := joinWith ('\n' :: pctpct) pscodes
    if hasInfix tq pscodesStr then
      throw .tripleQuote
    else
      return joinWith [','] names ++ ("=r").toList ++ tq ++ pscodesStr ++
        '\n' :: tq ++ (".split(").toList ++ [sq] ++ ("%%%%").toList ++ [sq] ++ [')']

/-- The C8 failing table: two public names `a`, `b` with string-literal
values. -/
def c8entries : List (Str × Str) :=
  [(['a'], ("(x)").toList), (['b'], ("(y)").toList)]

/-- The blob embedded between the `r'''` quotes for the C8 table. -/
def c8blob : Str := ("(x)\n%%(y)\n").toList

/-- C8: the claim fails on the code.  For the two-entry table the generated
expression embeds the blob `(x)\n%%(y)\n` but writes `.split('%%%%')` —
four percent characters — into the split call; splitting the blob by that
written separator yields the single piece `[blob]`, not the two minified
literal values `(x)`, `(y)` matching the two names (the join delimiter is
`\n%%`, so the intended split separator is `%%`, which recovers one piece
per name, each with a trailing newline). -/
theorem c8_split_separator_mismatch :
    MinifyPostScriptProcsetsM c8entries =
      .ok (("a,b=r").toList ++ tq ++ c8blob ++ tq ++ (".split(").toList ++
        [sq] ++ ("%%%%").toList ++ [sq] ++ [')'])
    ∧ hasInfix ((".split(").toList ++ [sq] ++ ("%%%%").toList ++ [sq] ++ [')'])
        (("a,b=r").toList ++ tq ++ c8blob ++ tq ++ (".split(").toList ++
          [sq] ++ ("%%%%").toList ++ [sq] ++ [')']) = true
    ∧ pySplit (("%%%%").toList) c8blob = [c8blob]
    ∧ ¬ (pySplit (("%%%%").toList) c8blob =
        [("(x)").toList, ("(y)").toList])
    ∧ pySplit pctpct c8blob = [("(x)\n").toList, ("(y)\n").toList] := by
  refine ⟨?_, by decide, by decide, by decide, by decide⟩
  have hx : MinifyPostScriptM ['(', 'x', ')'] = .ok ['(', 'x', ')'] := by
    unfold MinifyPostScriptM
    simp [psScan, psLit, psWsChar, psDelim, psBareChar, Except.map, psEmitAll,
      outLastChar, closersStr, joinS]
  have hy : MinifyPostScriptM ['(', 'y', ')'] = .ok ['(', 'y', ')'] := by
    unfold MinifyPostScriptM
    simp [psScan, psLit, psWsChar, psDelim, psBareChar, Except.map, psEmitAll,
      outLastChar, closersStr, joinS]
  unfold MinifyPostScriptProcsetsM
  rw [show c8entries = [(['a'], ['(', 'x', ')']), (['b'], ['(', 'y', ')'])] from rfl]
  simp only [List.filter_cons, List.filter_nil]
  simp only [minifyValues, hx, hy]
  simp +decide [hasInfix, pctpct, joinWith, tq, c8blob, sq, List.isPrefixOf,
    Except.map, bind, Except.bind, pure, Except.pure]

/-! ### Claim C9: input validation of `MinifyFile` -/

/-- Errors raised by `MinifyFile` before producing output: the coding
declaration rejection, the unsupported-character rejection (with the
matched run), or a failed syntax check. -/
inductive FileErr where
  | coding
  | badChars (run : Str)
  | syntaxError
  deriving DecidableEq, Repr

/-- A character matched by `UNSUPPORTED_CHARS_RE = [^\na -~]+`: anything
other than the newline and the printable ASCII range `0x20`-`0x7E`. -/
def unsupportedChar (c : Char) : Bool :=
  !(c == '\n' || (' ' ≤ c && c ≤ '~'))

/-- `UNSUPPORTED_CHARS_RE.search`: the first maximal run of unsupported
characters, if any. -/
def findBadRun : Str → Option Str
  | [] => none
  | c :: rest =>
      if unsupportedChar c then some (c :: rest.takeWhile unsupportedChar)
      else findBadRun rest

/-- The declaration marker `-*- coding: `. -/
def codingMark : Str := ("-*- coding: ").toList

/-- The input checks of `MinifyFile` (source lines 126-135), in source
order: the coding check runs only when the text contains a newline
(`code_orig.find("\n") >= 0`) and tests the text before the first newline;
then the unsupported-character search runs on the whole text. -/
def minifyFileErr (s : Str) : Option FileErr :=
  if s.contains '\n' && hasInfix codingMark (s.takeWhile (fun c => !(c == '\n')))
  then some .coding
  else
    match findBadRun s with
    | some run => some (.badChars run)
    | none => none

/-- `MinifyFile`: the two input checks, then the syntax check of the input
(the external `compile` call, modelled from the spec as acceptance by the
tokenizer), then `Minify`; the minified text is the result. -/
def MinifyFileM (s : Str) : Except FileErr Str :=
  match minifyFileErr s with
  | some e => .error e
  | none =>
      match pyTokenize s with
      | none => .error .syntaxError
      | some ts => .ok (joinS (minifyFragments ts))

instance decEqExcept {ε α : Type} [DecidableEq ε] [DecidableEq α] :
    DecidableEq (Except ε α) := fun a b =>
  match a, b with
  | .error e, .error f =>
      if h : e = f then .isTrue (by rw [h]) else .isFalse (by simp [h])
  | .ok x, .ok y =>
      if h : x = y then .isTrue (by rw [h]) else .isFalse (by simp [h])
  | .error _, .ok _ => .isFalse (by simp)
  | .ok _, .error _ => .isFalse (by simp)

theorem findBadRun_none : ∀ s : Str,
    findBadRun s = none ↔ ∀ c ∈ s, unsupportedChar c = false := by
  intro s
  induction s with
  | nil => simp [findBadRun]
  | cons c rest ih =>
      by_cases hc : unsupportedChar c = true
      · simp [findBadRun, hc]
      · simp only [Bool.not_eq_true] at hc
        simp [findBadRun, hc, ih]

/-- The C9 counterexample text: a single line containing the coding
declaration, with no newline character. -/
def c9text : Str := ("# -*- coding: x").toList

/-- C9 counterexample: `# -*- coding: x` (no trailing newline) has the
`-*- coding: ` declaration on its leading — and only — line, so the claim
requires an error; but the code only checks the declaration when
`find("\n")` succeeds, so both checks pass and `MinifyFile` proceeds to
minify (the comment-only file minifies to the empty text). -/
theorem c9_counterexample :
    hasInfix codingMark (c9text.takeWhile (fun c => !(c == '\n'))) = true
    ∧ (∀ c ∈ c9text, unsupportedChar c = false)
    ∧ minifyFileErr c9text = none
    ∧ MinifyFileM c9text = .ok [] := by
  refine ⟨by decide, by decide, by decide, by decide⟩

/-- C9 (amended): `MinifyFile` raises an error before any minification is
performed whenever the text contains a character other than newline and
printable ASCII (0x20-0x7E), and whenever the text contains a newline and a
`-*- coding: ` declaration appears before the first newline; a sole line
without a terminating newline is not checked for the coding declaration.
For all other inputs the checks pass and it proceeds to the syntax check
and minification. -/
theorem c9_input_validation (s : Str) :
    (minifyFileErr s ≠ none ↔
      ((∃ c ∈ s, unsupportedChar c = true) ∨
        (s.contains '\n' = true ∧
          hasInfix codingMark (s.takeWhile (fun c => !(c == '\n'))) = true)))
    ∧ (∀ e, minifyFileErr s = some e → MinifyFileM s = .error e)
    ∧ (minifyFileErr s = none →
        MinifyFileM s = match pyTokenize s with
          | none => .error .syntaxError
          | some ts => .ok (joinS (minifyFragments ts))) := by
  refine ⟨?_, ?_, ?_⟩
  · unfold minifyFileErr
    by_cases hcod : (s.contains '\n' &&
        hasInfix codingMark (s.takeWhile (fun c => !(c == '\n')))) = true
    · rw [Bool.and_eq_true] at hcod
      have hmem : '\n' ∈ s := by simpa using hcod.1
      simp [hmem, hcod.1, hcod.2]
    · rw [if_neg hcod]
      rw [Bool.and_eq_true] at hcod
      cases hbad : findBadRun s with
      | some run =>
          have hrun : ¬ (findBadRun s = none) := by simp [hbad]
          rw [findBadRun_none] at hrun
          push_neg at hrun
          obtain ⟨c, hc1, hc2⟩ := hrun
          simp only [Bool.not_eq_false] at hc2
          simp only [ne_eq, reduceCtorEq, not_false_eq_true, true_iff]
          exact Or.inl ⟨c, hc1, hc2⟩
      | none =>
          rw [findBadRun_none] at hbad
          simp only [ne_eq, not_true_eq_false, false_iff, not_or, not_and]
          constructor
          · push_neg
            intro c hc
            simp [hbad c hc]
          · intro h1 h2
            exact hcod ⟨h1, h2⟩
  · intro e he
    unfold MinifyFileM
    rw [he]
  · intro he
    unfold MinifyFileM
    rw [he]

/-- Witness for the amended C9: `x=\u0001` contains the control character
`\u0001`, so the checks report an unsupported-character error and
`MinifyFile` raises before minifying. -/
theorem c9_input_validation_witness :
    minifyFileErr ('x' :: '=' :: [Char.ofNat 1]) ≠ none
    ∧ MinifyFileM ('x' :: '=' :: [Char.ofNat 1]) =
        .error (.badChars [Char.ofNat 1]) :=
  ⟨(c9_input_validation ('x' :: '=' :: [Char.ofNat 1])).1.mpr
      (Or.inl ⟨Char.ofNat 1, by decide⟩),
   (c9_input_validation ('x' :: '=' :: [Char.ofNat 1])).2.1
      (FileErr.badChars [Char.ofNat 1]) (by decide)⟩

end Mks
